import Mathlib
/-!
Shallow embedding of `establishment_of_db.py`, the video retrieval database
construction pipeline, together with theorems checking the natural-language
specification of the repository against it.

External collaborators (OpenCV, librosa, PyWavelets, ffmpeg, the file system
and SQLite) are parametrised:

* each video carries the data those collaborators would return for it
  (per-frame SIFT descriptor sums, decoded audio samples, the two DWT
  coefficient arrays, and the artifact paths `extract_frames`/`extract_audio`
  derive from its filename);
* the SQLite table `RetrievalDatabase` is modelled as the list of its rows;
* Python floats are modelled as rationals;
* the pipeline's observable actions (frame extraction, audio extraction,
  insert attempts, `save_progress` calls, deletions) are recorded in an
  explicit event trace.
-/
/-- A row of the `RetrievalDatabase` table:
`(id autoincrement, ByteSequence, VideoID, FeatureID, PositionID)`.
`ByteSequence` is an SQL `TEXT` column, so it is modelled as `Option String`
(`none` is SQL NULL); the pipeline itself only ever inserts `some` values. -/
structure FeatureRecord where
  byteSequence : Option String
  videoID : Nat
  featureID : String
  positionID : Nat
deriving DecidableEq
/-- `insert_unique_into_database`: runs
`SELECT COUNT(*) FROM RetrievalDatabase WHERE ByteSequence = ?` and inserts
only when that count is 0.  SQL `=` never matches NULL rows, hence the
comparison with `some byte_sequence`. -/
def insert_unique_into_database (db : List FeatureRecord) (byte_sequence : String)
    (video_id : Nat) (feature_id : String) (position_id : Nat) : List FeatureRecord :=
  if db.countP (fun r => r.byteSequence == some byte_sequence) = 0 then
    db ++ [⟨some byte_sequence, video_id, feature_id, position_id⟩]
  else db
/-- `check_database_integrity`: counts rows with
`ByteSequence IS NULL OR ByteSequence = ''` and returns whether that count
is zero. -/
def check_database_integrity (db : List FeatureRecord) : Bool :=
  db.countP (fun r => r.byteSequence == none || r.byteSequence == some "") == 0
/-- `SELECT COUNT(DISTINCT ByteSequence)`: the number of distinct non-NULL
`ByteSequence` values (SQL `COUNT(DISTINCT col)` ignores NULLs). -/
def distinct_hash_count (db : List FeatureRecord) : Nat :=
  (db.filterMap (fun r => r.byteSequence)).dedup.length
/-- `check_all_hash_sequences_generated`: the distinct count equals 256. -/
def check_all_hash_sequences_generated (db : List FeatureRecord) : Bool :=
  distinct_hash_count db == 256
/-- Python `format(n, '08b')`: binary digits of `n`, zero-padded on the left
to a minimum width of 8. -/
def pyFormat08b (n : Nat) : String :=
  let digits := Nat.toDigits 2 n
  String.mk (List.replicate (8 - digits.length) '0' ++ digits)
/-- Python `int(x)` applied to a float: truncation toward zero. -/
def pyInt (e : ℚ) : Int :=
  if e < 0 then -Int.floor (-e) else Int.floor e
/-- Python float `%`: `e % m = e - m * floor(e / m)` (result has the sign
of `m`; for `m = 256` it lies in `[0, 256)`). -/
def pyFloatMod (e m : ℚ) : ℚ := e - m * (Int.floor (e / m) : ℚ)
/-- `format(int(e % 256), '08b')`: the 8-bit rendering applied to every
numeric feature value in the pipeline. -/
def hashByte (e : ℚ) : String := pyFormat08b (pyInt (pyFloatMod e 256)).toNat
/-- `calculate_sift_descriptors`: reading the frame and running
`sift.detectAndCompute` are external; the input here is
`np.sum(descriptors)` (or `none` when `descriptors is None`).  The code
renders `''.join(format(int(sum % 256), '08b'))` - a join over the characters
of a single string, i.e. the string itself - and `'00000000'` when there are
no descriptors. -/
def calculate_sift_descriptors (descriptorSum : Option ℚ) : String :=
  match descriptorSum with
  | some s => hashByte s
  | none => "00000000"
/-- `calculate_ste_hash`: the energy of each `frame_length`-sized window of
the audio signal (`np.sum(audio_signal[i:i+frame_length] ** 2)`), each
rendered as an 8-bit binary string. -/
def calculate_ste_hash (audio_signal : List ℚ) (frame_length : Nat) : List String :=
  let energy := (audio_signal.toChunks frame_length).map (fun w => (w.map (fun x => x * x)).sum)
  energy.map (fun e => hashByte e)
/-- `calculate_dwt_hash`: `pywt.dwt` is external, so its two coefficient
arrays are inputs; the code concatenates approximation and detail and renders
each coefficient as an 8-bit binary string. -/
def calculate_dwt_hash (approximation detail : List ℚ) : List String :=
  (approximation ++ detail).map (fun x => hashByte x)
/-- `update_retrieval_database`: joins the hash sequence into one string
(every call site passes a single-element list) and inserts it uniquely. -/
def update_retrieval_database (db : List FeatureRecord) (video_id : Nat)
    (feature_id : String) (position_id : Nat) (hash_sequence : List String) :
    List FeatureRecord :=
  let byte_sequence := String.join hash_sequence
  insert_unique_into_database db byte_sequence video_id feature_id position_id
/-- An insert call `(byte_sequence, video_id, feature_id, position_id)`. -/
structure InsertCall where
  byte_sequence : String
  video_id : Nat
  feature_id : String
  position_id : Nat
deriving DecidableEq
/-- Replay a sequence of `insert_unique_into_database` calls. -/
def applyInserts (db : List FeatureRecord) (calls : List InsertCall) : List FeatureRecord :=
  calls.foldl
    (fun d c => insert_unique_into_database d c.byte_sequence c.video_id c.feature_id c.position_id)
    db
/-- The record a call would insert. -/
def InsertCall.record (c : InsertCall) : FeatureRecord :=
  ⟨some c.byte_sequence, c.video_id, c.feature_id, c.position_id⟩
/-- No two rows share a byte sequence (the dedup invariant). -/
def DedupInv (db : List FeatureRecord) : Prop :=
  List.Pairwise (fun a b => a.byteSequence ≠ b.byteSequence) db
/-- A string of exactly 8 characters, each `'0'` or `'1'`. -/
def isBin8 (s : String) : Prop := s.length = 8 ∧ ∀ c ∈ s.data, c = '0' ∨ c = '1'
instance (s : String) : Decidable (isBin8 s) := by
  unfold isBin8; infer_instance
/-- Decode an 8-bit binary string back to the number it renders. -/
def bin8ToNat (s : String) : Nat :=
  s.data.foldl (fun acc c => 2 * acc + (if c = '1' then 1 else 0)) 0
/-- The 256 possible 8-bit hash strings, in numeric order. -/
def allHash8 : List String := (List.range 256).map pyFormat08b
/-! ## The controller: `video_retrieval_database_construction` -/
/-- Per-video data returned by the external collaborators:
`frames` holds, for each extracted frame image in order, the value
`np.sum(descriptors)` that `calculate_sift_descriptors` computes for it
(`none` when `descriptors is None`); `audio` is the decoded waveform;
`dwtA`/`dwtD` are the two coefficient arrays `pywt.dwt` returns for that
waveform; `frame_dir` and `audio_path` are the artifact paths
`extract_frames`/`extract_audio` derive from the video's filename. -/
structure VideoInput where
  frame_dir : String
  audio_path : String
  frames : List (Option ℚ)
  audio : List ℚ
  dwtA : List ℚ
  dwtD : List ℚ
deriving DecidableEq
/-- The contents of the progress dict
`{"video_index": ..., "frame_index": ..., "feature_stage": ...}`. -/
structure Progress where
  video_index : Nat
  frame_index : Nat
  feature_stage : String
deriving DecidableEq
/-- Observable actions of the pipeline, in execution order.  `saveUnit` is
the `save_progress` call made after each hash unit inside a stage loop;
`saveTransition` is the `save_progress` call made at a stage or video
transition. -/
inductive Event where
  | extractFrames (video_pos : Nat) (frame_dir : String)
  | extractAudio (video_pos : Nat) (audio_path : String)
  | insertAttempt (call : InsertCall)
  | saveUnit (p : Progress)
  | saveTransition (p : Progress)
  | deleteDirectory (path : String)
  | deleteFiles (paths : List String)
deriving DecidableEq
/-- The SIFT stage loop:
`for j, frame_path in enumerate(frames[frame_index:], start=frame_index)`,
inserting `update_retrieval_database(db, video_id, 'SIFT', j, [hash])` and
then saving `{"video_index": i, "frame_index": j + 1, "feature_stage": "SIFT"}`
for each frame of the slice. -/
def siftStage (i video_id : Nat) (frames : List (Option ℚ)) (frame_index : Nat) :
    List Event :=
  ((List.enumFrom frame_index (frames.drop frame_index)).map (fun ju =>
      [Event.insertAttempt ⟨String.join [calculate_sift_descriptors ju.2], video_id, "SIFT", ju.1⟩,
       Event.saveUnit ⟨i, ju.1 + 1, "SIFT"⟩])).flatten

/-- The value of the `frame_index` local after the SIFT loop: each iteration
sets `frame_index = j + 1`, so it ends at `frames.length` when the slice
`frames[frame_index:]` is nonempty and keeps its old value otherwise. -/
def siftStageFi (frames : List (Option ℚ)) (frame_index : Nat) : Nat :=
  (List.enumFrom frame_index (frames.drop frame_index)).foldl
    (fun _ ju => ju.1 + 1) frame_index

/-- The STE stage loop: `for j, h in enumerate(hash_ste)` (always from 0),
inserting and saving after each unit.  The `frame_index` local is *not*
updated here. -/
def steStage (i video_id : Nat) (audio : List ℚ) : List Event :=
  let hash_ste := calculate_ste_hash audio 2048
  (hash_ste.enum.map (fun jh =>
      [Event.insertAttempt ⟨String.join [jh.2], video_id, "STE", jh.1⟩,
       Event.saveUnit ⟨i, jh.1 + 1, "STE"⟩])).flatten

/-- The DWT stage loop: `for j, h in enumerate(hash_dwt)` (always from 0).
The `frame_index` local is *not* updated here either. -/
def dwtStage (i video_id : Nat) (dwtA dwtD : List ℚ) : List Event :=
  let hash_dwt := calculate_dwt_hash dwtA dwtD
  (hash_dwt.enum.map (fun jh =>
      [Event.insertAttempt ⟨String.join [jh.2], video_id, "DWT", jh.1⟩,
       Event.saveUnit ⟨i, jh.1 + 1, "DWT"⟩])).flatten

/-- Events of the `if feature_stage == "SIFT"` block: the SIFT loop followed
by the transition save `{"video_index": i, "frame_index": 0, "feature_stage": "STE"}`. -/
def siftBlockEvents (i : Nat) (v : VideoInput) (frame_index : Nat) (st : String) : List Event :=
  if st == "SIFT" then
    siftStage i (i + 1) v.frames frame_index ++ [Event.saveTransition ⟨i, 0, "STE"⟩]
  else []

/-- `frame_index` local after the SIFT block (unchanged when the block is
skipped, and unchanged by the STE and DWT blocks). -/
def fiAfterSiftBlock (v : VideoInput) (frame_index : Nat) (st : String) : Nat :=
  if st == "SIFT" then siftStageFi v.frames frame_index else frame_index

/-- `feature_stage` local after the SIFT block (`feature_stage = "STE"`). -/
def stageAfterSiftBlock (st : String) : String :=
  if st == "SIFT" then "STE" else st

/-- Events of the `if feature_stage == "STE"` block. -/
def steBlockEvents (i : Nat) (v : VideoInput) (st : String) : List Event :=
  if st == "STE" then
    steStage i (i + 1) v.audio ++ [Event.saveTransition ⟨i, 0, "DWT"⟩]
  else []

/-- `feature_stage` local after the STE block (`feature_stage = "DWT"`). -/
def stageAfterSteBlock (st : String) : String :=
  if st == "STE" then "DWT" else st

/-- Events of the `if feature_stage == "DWT"` block; its transition save is
`{"video_index": i + 1, "frame_index": 0, "feature_stage": "SIFT"}`. -/
def dwtBlockEvents (i : Nat) (v : VideoInput) (st : String) : List Event :=
  if st == "DWT" then
    dwtStage i (i + 1) v.dwtA v.dwtD ++ [Event.saveTransition ⟨i + 1, 0, "SIFT"⟩]
  else []

/-- `feature_stage` local after the DWT block (`feature_stage = "SIFT"`). -/
def stageAfterDwtBlock (st : String) : String :=
  if st == "DWT" then "SIFT" else st

/-- The body of the per-video loop: frame extraction, then the three stage
blocks guarded by `feature_stage` string comparisons - each block's guard
reads the value the previous block left behind, exactly as in the source.
Returns the events together with the final values of the `frame_index` and
`feature_stage` locals (the `video_index` local is never written inside the
loop). -/
def processVideoEvents (i : Nat) (v : VideoInput) (frame_index : Nat)
    (feature_stage : String) : List Event × Nat × String :=
  let st1 := stageAfterSiftBlock feature_stage
  let st2 := stageAfterSteBlock st1
  ([Event.extractFrames i v.frame_dir] ++
     siftBlockEvents i v frame_index feature_stage ++
     [Event.extractAudio i v.audio_path] ++
     steBlockEvents i v st1 ++
     dwtBlockEvents i v st2,
   fiAfterSiftBlock v frame_index feature_stage,
   stageAfterDwtBlock st2)
/-- Database effect of one event: only insert attempts touch the store. -/
def applyEvent (db : List FeatureRecord) (e : Event) : List FeatureRecord :=
  match e with
  | Event.insertAttempt c =>
      update_retrieval_database db c.video_id c.feature_id c.position_id [c.byte_sequence]
  | _ => db
/-- Database effect of a sequence of events. -/
def applyEvents (db : List FeatureRecord) (evs : List Event) : List FeatureRecord :=
  evs.foldl applyEvent db
/-- The `for i, video_path in enumerate(video_files)` loop.  Before each
video the coverage condition is checked and, when it holds, the loop breaks.
Videos with index below the checkpointed `video_index` are *not* skipped:
the loop always enumerates from the start of the list.  Returns
`(events, db, frame_index, feature_stage)`. -/
def runLoop : List VideoInput → Nat → List FeatureRecord → Nat → String →
    List Event × List FeatureRecord × Nat × String
  | [], _, db, fi, st => ([], db, fi, st)
  | v :: rest, i, db, fi, st =>
    if check_all_hash_sequences_generated db then ([], db, fi, st)
    else
      let p := processVideoEvents i v fi st
      let r := runLoop rest (i + 1) (applyEvents db p.1) p.2.1 p.2.2
      (p.1 ++ r.1, r.2)
/-- The value of the Python local `frame_dir` after the loop: bound by the
last `extract_frames` call (the source raises `NameError` at the final
`delete_directory(frame_dir)` when no video was processed; that case is
modelled as the absence of a deletion event). -/
def lastExtractedFrameDir (evs : List Event) : Option String :=
  (evs.filterMap (fun e =>
    match e with
    | Event.extractFrames _ d => some d
    | _ => none)).getLast?
/-- The value of the Python local `audio_path` after the loop. -/
def lastExtractedAudioPath (evs : List Event) : Option String :=
  (evs.filterMap (fun e =>
    match e with
    | Event.extractAudio _ pth => some pth
    | _ => none)).getLast?
/-- `video_retrieval_database_construction`: loads the progress record if the
progress file exists (else the fresh default), runs the video loop - note the
loaded `video_index` is bound to a local that the loop never consults - and
afterwards deletes `frame_dir` and `audio_path`, the artifacts of the *last*
processed video only. -/
def video_retrieval_database_construction (videos : List VideoInput)
    (progress0 : Option Progress) (db : List FeatureRecord) :
    List Event × List FeatureRecord :=
  let progress := progress0.getD ⟨0, 0, "SIFT"⟩
  let r := runLoop videos 0 db progress.frame_index progress.feature_stage
  let cleanup :=
    (match lastExtractedFrameDir r.1 with
     | some d => [Event.deleteDirectory d]
     | none => []) ++
    (match lastExtractedAudioPath r.1 with
     | some pth => [Event.deleteFiles [pth]]
     | none => [])
  (r.1 ++ cleanup, r.2.1)

/-! ## The checkpoint file: `save_progress` -/

/-- `PROGRESS_FILE = "progress.json"`. -/
def PROGRESS_FILE : String := "progress.json"

/-- The serialized form `json.dump` writes for a progress dict. -/
def progressToJson (p : Progress) : String :=
  "\x7b\"video_index\": " ++ toString p.video_index ++
  ", \"frame_index\": " ++ toString p.frame_index ++
  ", \"feature_stage\": \"" ++ p.feature_stage ++ "\"\x7d"

/-- Primitive file-system operations, at the granularity relevant for
interruption during a save. -/
inductive FileOp where
  | openTruncate (path : String)
  | writeChunk (path : String) (data : String)
  | closeFile (path : String)
  | rename (src dst : String)
deriving DecidableEq

/-- `save_progress(progress)`:
`with open(PROGRESS_FILE, 'w') as f: json.dump(progress, f)` - an `'w'`-mode
open truncates the file in place, then the serialization is written. -/
def save_progress_ops (p : Progress) : List FileOp :=
  [FileOp.openTruncate PROGRESS_FILE,
   FileOp.writeChunk PROGRESS_FILE (progressToJson p),
   FileOp.closeFile PROGRESS_FILE]

/-- Modelled from the spec: the write-to-temp-then-rename discipline
(`use write-to-temp-then-rename or equivalent durable-write discipline`):
the final path is never opened, written or renamed away directly; its content
may only change by renaming a fully written temporary into place. -/
def writesViaTempThenRename (final : String) (ops : List FileOp) : Bool :=
  ops.all (fun op =>
    match op with
    | FileOp.openTruncate q => q != final
    | FileOp.writeChunk q _ => q != final
    | FileOp.closeFile _ => true
    | FileOp.rename src _ => src != final)

/-- File-system contents: an association of paths to file contents. -/
def fsGet (fs : List (String × String)) (path : String) : Option String :=
  (fs.find? (fun kv => kv.1 == path)).map (fun kv => kv.2)

/-- Create or overwrite a file. -/
def fsSet (fs : List (String × String)) (path : String) (data : String) :
    List (String × String) :=
  (path, data) :: fs.filter (fun kv => kv.1 != path)

/-- Effect of one file operation on the file system. -/
def execFileOp (fs : List (String × String)) (op : FileOp) : List (String × String) :=
  match op with
  | FileOp.openTruncate path => fsSet fs path ""
  | FileOp.writeChunk path data => fsSet fs path ((fsGet fs path).getD "" ++ data)
  | FileOp.closeFile _ => fs
  | FileOp.rename src dst =>
    match fsGet fs src with
    | some data => fsSet (fs.filter (fun kv => kv.1 != src)) dst data
    | none => fs

/-- Effect of a sequence of file operations; interrupting a save means
executing only a prefix of its operations. -/
def execFileOps (fs : List (String × String)) (ops : List FileOp) :
    List (String × String) :=
  ops.foldl execFileOp fs

/-! ## Event classifiers and sample corpus -/

/-- Is this event a frame extraction? -/
def isExtractFramesEvent : Event → Bool
  | Event.extractFrames _ _ => true
  | _ => false

/-- Is this event a deletion (`delete_directory` or `delete_files`)? -/
def isDeleteEvent : Event → Bool
  | Event.deleteDirectory _ => true
  | Event.deleteFiles _ => true
  | _ => false

/-- Is this event an insert attempt from the SIFT stage? -/
def isSiftInsertEvent : Event → Bool
  | Event.insertAttempt c => c.feature_id == "SIFT"
  | _ => false

/-- A store holding one record for each of the 256 possible hash strings. -/
def fullDb : List FeatureRecord := allHash8.map (fun s => ⟨some s, 1, "SIFT", 0⟩)

/-- Sample video `a`: two frames with descriptor sums 1 and 2, one audio
sample (one STE window of energy 9), one DWT coefficient 4. -/
def vidA : VideoInput := ⟨"Processed/frames_a", "Videos/a.wav", [some 1, some 2], [3], [4], []⟩

/-- Sample video `b`: one frame with descriptor sum 5, one audio sample
(one STE window of energy 36), one DWT coefficient 7. -/
def vidB : VideoInput := ⟨"Processed/frames_b", "Videos/b.wav", [some 5], [6], [7], []⟩

/-- Every row of the store carries an 8-bit binary byte sequence. -/
def Bin8Db (db : List FeatureRecord) : Prop :=
  ∀ r ∈ db, ∃ bs, r.byteSequence = some bs ∧ isBin8 bs ∧ bs ∈ allHash8

/-! ## Interruption

A hash unit is complete once its per-unit `save_progress` call has returned;
the interrupt handler may fire at any such point.  Execution is
deterministic, so the events an interrupted run has performed are exactly a
prefix of the uninterrupted trace, cut immediately after a per-unit save. -/

/-- Is this event a per-unit `save_progress` call? -/
def isUnitSaveEvent : Event → Bool
  | Event.saveUnit _ => true
  | _ => false

/-- Number of completed hash units recorded in a trace. -/
def unitCount (evs : List Event) : Nat := evs.countP isUnitSaveEvent

/-- The prefix of a trace up to and including its `k`-th per-unit save
(1-based): everything the run has done when an interrupt arrives right after
its `k`-th completed hash unit. -/
def eventsUpToUnit : List Event → Nat → List Event
  | _, 0 => []
  | [], _ + 1 => []
  | Event.saveUnit p :: _, 1 => [Event.saveUnit p]
  | Event.saveUnit p :: es, k + 2 => Event.saveUnit p :: eventsUpToUnit es (k + 1)
  | e :: es, k + 1 => e :: eventsUpToUnit es (k + 1)

/-- The value of the `frame_index` local at the end of a trace prefix, given
its initial value: the local is written (to `j + 1`) only in the SIFT loop,
immediately after the per-unit save carrying that same value, so it equals
the `frame_index` of the last SIFT per-unit save, if any. -/
def fiAfter (fi0 : Nat) (evs : List Event) : Nat :=
  ((evs.filterMap (fun e =>
      match e with
      | Event.saveUnit p => if p.feature_stage == "SIFT" then some p.frame_index else none
      | _ => none)).getLast?).getD fi0

/-- The value of the `feature_stage` local at the end of a trace prefix that
ends at a completed unit: the stage of that unit's per-unit save (stage
reassignments happen only after a stage's loop has finished). -/
def stageAfter (st0 : String) (evs : List Event) : String :=
  ((evs.filterMap (fun e =>
      match e with
      | Event.saveUnit p => some p.feature_stage
      | _ => none)).getLast?).getD st0

/-- The progress record written by the per-unit save of the last completed
unit of a trace prefix: the `(video_index, frame_index, feature_stage)`
valid as of that unit. -/
def lastUnitSave (evs : List Event) : Option Progress :=
  (evs.filterMap (fun e =>
    match e with
    | Event.saveUnit p => some p
    | _ => none)).getLast?

/-- Interrupting a run right after its `k`-th completed hash unit:
`handle_interrupt` fires and runs
`save_progress({"video_index": video_index, "frame_index": frame_index,
"feature_stage": feature_stage})` - `video_index` still holds the value
loaded at startup (the loop never writes it), while `frame_index` and
`feature_stage` hold whatever the loops left in them - and then `exit(1)`.
Returns `none` when the run completes in fewer than `k` units (no
interruption), otherwise the checkpoint the handler saved together with the
store contents at that moment. -/
def interruptedState (videos : List VideoInput) (progress0 : Option Progress)
    (db : List FeatureRecord) (k : Nat) : Option (Progress × List FeatureRecord) :=
  let progress := progress0.getD ⟨0, 0, "SIFT"⟩
  let r := runLoop videos 0 db progress.frame_index progress.feature_stage
  if 1 ≤ k ∧ k ≤ unitCount r.1 then
    let pre := eventsUpToUnit r.1 k
    some (⟨progress.video_index, fiAfter progress.frame_index pre,
           stageAfter progress.feature_stage pre⟩,
          applyEvents db pre)
  else none

/-- All progress records passed to `save_progress` by the loop (per-unit and
transition saves), in order. -/
def savesOf (evs : List Event) : List Progress :=
  evs.filterMap (fun e =>
    match e with
    | Event.saveUnit p => some p
    | Event.saveTransition p => some p
    | _ => none)

/-- All insert calls of a trace, in order. -/
def attemptsOf (evs : List Event) : List InsertCall :=
  evs.filterMap (fun e =>
    match e with
    | Event.insertAttempt c => some c
    | _ => none)

/-- The trace the loop would produce with the coverage break removed: since
a break can only fire once the store already contains every producible byte
sequence, the skipped insert attempts are all no-ops, and this break-free
trace determines the same final store. -/
def genEvents : List VideoInput → Nat → Nat → String → List Event
  | [], _, _, _ => []
  | v :: rest, i, fi, st =>
    let p := processVideoEvents i v fi st
    p.1 ++ genEvents rest (i + 1) p.2.1 p.2.2

/-- Left-biased choice on `Option` (strict version of `<|>`). -/
def oor {α : Type} (a b : Option α) : Option α :=
  match a with
  | some x => some x
  | none => b

/-- The first record in the store carrying `bs` (SQL lookup order). -/
def findRec (db : List FeatureRecord) (bs : String) : Option FeatureRecord :=
  db.find? (fun r => r.byteSequence == some bs)

/-- The record the first insert call carrying `bs` would create: with
first-wins deduplication this is the record the store ends up holding. -/
def firstNew (as : List InsertCall) (bs : String) : Option FeatureRecord :=
  (as.find? (fun c => c.byte_sequence == bs)).map InsertCall.record

/-- The event shape shared by all three stage loops: one insert attempt
followed by one per-unit save, for each unit of the stage. -/
def unitPairs {α : Type} (us : List α) (f : α → InsertCall) (g : α → Progress) :
    List Event :=
  (us.map (fun u => [Event.insertAttempt (f u), Event.saveUnit (g u)])).flatten

/-- The insert call of one SIFT unit. -/
def siftCall (vid : Nat) (ju : Nat × Option ℚ) : InsertCall :=
  ⟨String.join [calculate_sift_descriptors ju.2], vid, "SIFT", ju.1⟩

/-- The per-unit save of one SIFT unit. -/
def siftSave (i : Nat) (ju : Nat × Option ℚ) : Progress := ⟨i, ju.1 + 1, "SIFT"⟩

/-- The insert call of one STE unit. -/
def steCall (vid : Nat) (jh : Nat × String) : InsertCall :=
  ⟨String.join [jh.2], vid, "STE", jh.1⟩

/-- The per-unit save of one STE unit. -/
def steSave (i : Nat) (jh : Nat × String) : Progress := ⟨i, jh.1 + 1, "STE"⟩

/-- The insert call of one DWT unit. -/
def dwtCall (vid : Nat) (jh : Nat × String) : InsertCall :=
  ⟨String.join [jh.2], vid, "DWT", jh.1⟩

/-- The per-unit save of one DWT unit. -/
def dwtSave (i : Nat) (jh : Nat × String) : Progress := ⟨i, jh.1 + 1, "DWT"⟩

/-- The insert calls the SIFT stage loop issues, in order. -/
def siftAttempts (vid : Nat) (frames : List (Option ℚ)) (fi : Nat) :
    List InsertCall :=
  (List.enumFrom fi (frames.drop fi)).map (siftCall vid)

/-- The insert calls the STE stage loop issues, in order. -/
def steAttempts (vid : Nat) (audio : List ℚ) : List InsertCall :=
  (calculate_ste_hash audio 2048).enum.map (steCall vid)

/-- The insert calls the DWT stage loop issues, in order. -/
def dwtAttempts (vid : Nat) (dwtA dwtD : List ℚ) : List InsertCall :=
  (calculate_dwt_hash dwtA dwtD).enum.map (dwtCall vid)

/-! ## Theorems -/

theorem countP_eq_zero_iff (db : List FeatureRecord) (bs : String) :
    db.countP (fun r => r.byteSequence == some bs) = 0 ↔
      ∀ r ∈ db, r.byteSequence ≠ some bs := by
  rw [List.countP_eq_zero]
  simp
theorem insert_unique_of_present (db : List FeatureRecord) (bs : String)
    (v : Nat) (f : String) (p : Nat) (h : ∃ r ∈ db, r.byteSequence = some bs) :
    insert_unique_into_database db bs v f p = db := by
  unfold insert_unique_into_database
  rw [if_neg]
  intro hc
  rw [countP_eq_zero_iff] at hc
  obtain ⟨r, hr, hrbs⟩ := h
  exact hc r hr hrbs
theorem insert_unique_of_absent (db : List FeatureRecord) (bs : String)
    (v : Nat) (f : String) (p : Nat) (h : ∀ r ∈ db, r.byteSequence ≠ some bs) :
    insert_unique_into_database db bs v f p = db ++ [⟨some bs, v, f, p⟩] := by
  unfold insert_unique_into_database
  rw [if_pos ((countP_eq_zero_iff db bs).mpr h)]
theorem dedupInv_insert (db : List FeatureRecord) (bs : String) (v : Nat)
    (f : String) (p : Nat) (h : DedupInv db) :
    DedupInv (insert_unique_into_database db bs v f p) := by
  unfold insert_unique_into_database
  split
  · rename_i hc
    rw [countP_eq_zero_iff] at hc
    refine List.pairwise_append.mpr ⟨h, List.pairwise_singleton _ _, ?_⟩
    intro a ha b hb
    simp only [List.mem_singleton] at hb
    subst hb
    simpa using fun hcontra => hc a ha hcontra
  · exact h
theorem dedupInv_applyInserts (calls : List InsertCall) (db : List FeatureRecord)
    (h : DedupInv db) : DedupInv (applyInserts db calls) := by
  induction calls generalizing db with
  | nil => exact h
  | cons c cs ih =>
    exact ih _ (dedupInv_insert _ _ _ _ _ h)
theorem dedupInv_nil : DedupInv [] := List.Pairwise.nil
/-- C3: for every sequence of `insert_unique` calls the store never holds two
records with the same `byte_sequence`; inserting an already-present
`byte_sequence` is a literal no-op (so `distinct_hash_count` and the first
inserting record's `(video_id, feature_id, position_id)` are unchanged, and
no constraint failure occurs). -/
theorem insert_unique_dedup_invariant (calls : List InsertCall)
    (db : List FeatureRecord) (bs : String) (v : Nat) (f : String) (p : Nat)
    (hbs : ∃ r ∈ db, r.byteSequence = some bs) :
    DedupInv (applyInserts [] calls) ∧
    insert_unique_into_database db bs v f p = db ∧
    distinct_hash_count (insert_unique_into_database db bs v f p) = distinct_hash_count db := by
  refine ⟨dedupInv_applyInserts calls [] dedupInv_nil, ?_, ?_⟩
  · exact insert_unique_of_present db bs v f p hbs
  · rw [insert_unique_of_present db bs v f p hbs]
/-- Witness for C3 at concrete inputs: the second insert of `"00000001"` is
dropped silently. -/
theorem insert_unique_dedup_invariant_witness :
    (∃ r ∈ [(⟨some "00000001", 1, "SIFT", 0⟩ : FeatureRecord)], r.byteSequence = some "00000001") ∧
    DedupInv (applyInserts [] [⟨"00000001", 1, "SIFT", 0⟩, ⟨"00000001", 2, "STE", 3⟩]) ∧
    insert_unique_into_database [⟨some "00000001", 1, "SIFT", 0⟩] "00000001" 2 "STE" 3 =
      [⟨some "00000001", 1, "SIFT", 0⟩] ∧
    distinct_hash_count
        (insert_unique_into_database [⟨some "00000001", 1, "SIFT", 0⟩] "00000001" 2 "STE" 3) =
      distinct_hash_count [⟨some "00000001", 1, "SIFT", 0⟩] := by
  refine ⟨⟨⟨some "00000001", 1, "SIFT", 0⟩, by simp⟩, ?_⟩
  have h := insert_unique_dedup_invariant
    [⟨"00000001", 1, "SIFT", 0⟩, ⟨"00000001", 2, "STE", 3⟩]
    [⟨some "00000001", 1, "SIFT", 0⟩] "00000001" 2 "STE" 3
    ⟨⟨some "00000001", 1, "SIFT", 0⟩, by simp⟩
  exact h
set_option maxRecDepth 4096 in
theorem pyFormat08b_isBin8 : ∀ n < 256, isBin8 (pyFormat08b n) := by decide
set_option maxRecDepth 4096 in
theorem bin8ToNat_pyFormat08b : ∀ n < 256, bin8ToNat (pyFormat08b n) = n := by decide
theorem pyFormat08b_injOn {a b : Nat} (ha : a < 256) (hb : b < 256)
    (h : pyFormat08b a = pyFormat08b b) : a = b := by
  have := bin8ToNat_pyFormat08b a ha
  have := bin8ToNat_pyFormat08b b hb
  rw [h] at *
  omega
theorem allHash8_nodup : allHash8.Nodup := by
  unfold allHash8
  refine List.Nodup.map_on ?_ (List.nodup_range 256)
  intro a ha b hb h
  rw [List.mem_range] at ha hb
  exact pyFormat08b_injOn ha hb h
theorem allHash8_length : allHash8.length = 256 := by
  unfold allHash8
  rw [List.length_map, List.length_range]
theorem pyFloatMod_nonneg (e : ℚ) : 0 ≤ pyFloatMod e 256 := by
  unfold pyFloatMod
  have h := Int.fract_nonneg (e / 256)
  rw [Int.fract] at h
  nlinarith
theorem pyFloatMod_lt (e : ℚ) : pyFloatMod e 256 < 256 := by
  unfold pyFloatMod
  have h := Int.fract_lt_one (e / 256)
  rw [Int.fract] at h
  nlinarith
theorem pyInt_pyFloatMod_lt (e : ℚ) : (pyInt (pyFloatMod e 256)).toNat < 256 := by
  unfold pyInt
  rw [if_neg (by have := pyFloatMod_nonneg e; linarith)]
  have h1 : (0 : Int) ≤ Int.floor (pyFloatMod e 256) :=
    Int.floor_nonneg.mpr (pyFloatMod_nonneg e)
  have h2 : Int.floor (pyFloatMod e 256) < 256 := by
    rw [Int.floor_lt]
    exact_mod_cast pyFloatMod_lt e
  omega
theorem hashByte_eq_pyFormat08b (e : ℚ) :
    ∃ m < 256, hashByte e = pyFormat08b m :=
  ⟨(pyInt (pyFloatMod e 256)).toNat, pyInt_pyFloatMod_lt e, rfl⟩
theorem hashByte_isBin8 (e : ℚ) : isBin8 (hashByte e) :=
  pyFormat08b_isBin8 _ (pyInt_pyFloatMod_lt e)
theorem mem_allHash8_of_lt {m : Nat} (hm : m < 256) : pyFormat08b m ∈ allHash8 :=
  List.mem_map_of_mem pyFormat08b (List.mem_range.mpr hm)
theorem hashByte_mem_allHash8 (e : ℚ) : hashByte e ∈ allHash8 :=
  mem_allHash8_of_lt (pyInt_pyFloatMod_lt e)
theorem zeros8_eq_pyFormat08b : "00000000" = pyFormat08b 0 := by decide
theorem sift_hash_mem_allHash8 (d : Option ℚ) :
    calculate_sift_descriptors d ∈ allHash8 := by
  cases d with
  | some s => exact hashByte_mem_allHash8 s
  | none =>
    rw [calculate_sift_descriptors, zeros8_eq_pyFormat08b]
    exact mem_allHash8_of_lt (by omega)
theorem sift_hash_isBin8 (d : Option ℚ) : isBin8 (calculate_sift_descriptors d) := by
  cases d with
  | some s => exact hashByte_isBin8 s
  | none =>
    rw [calculate_sift_descriptors, zeros8_eq_pyFormat08b]
    exact pyFormat08b_isBin8 0 (by omega)
theorem ste_hash_mem {sig : List ℚ} {fl : Nat} {h : String}
    (hh : h ∈ calculate_ste_hash sig fl) : isBin8 h ∧ h ∈ allHash8 := by
  unfold calculate_ste_hash at hh
  simp only [List.mem_map] at hh
  obtain ⟨e, _, rfl⟩ := hh
  exact ⟨hashByte_isBin8 e, hashByte_mem_allHash8 e⟩
theorem dwt_hash_mem {a d : List ℚ} {h : String}
    (hh : h ∈ calculate_dwt_hash a d) : isBin8 h ∧ h ∈ allHash8 := by
  unfold calculate_dwt_hash at hh
  simp only [List.mem_map] at hh
  obtain ⟨e, _, rfl⟩ := hh
  exact ⟨hashByte_isBin8 e, hashByte_mem_allHash8 e⟩
/-- C9: `check_database_integrity` is `false` exactly when some stored
`ByteSequence` is NULL or the empty string, and `true` on every store with
no such row. -/
theorem check_database_integrity_iff (db : List FeatureRecord) :
    check_database_integrity db = false ↔
      ∃ r ∈ db, r.byteSequence = none ∨ r.byteSequence = some "" := by
  unfold check_database_integrity
  rw [beq_eq_false_iff_ne]
  constructor
  · intro h
    have hpos : 0 < db.countP (fun r => r.byteSequence == none || r.byteSequence == some "") :=
      Nat.pos_of_ne_zero h
    rw [List.countP_pos_iff] at hpos
    obtain ⟨r, hr, hp⟩ := hpos
    simp only [Bool.or_eq_true, beq_iff_eq] at hp
    exact ⟨r, hr, hp⟩
  · intro ⟨r, hr, hor⟩ hzero
    rw [List.countP_eq_zero] at hzero
    apply hzero r hr
    simp only [Bool.or_eq_true, beq_iff_eq]
    exact hor.imp id id

/-! ### C4: coverage termination -/

theorem check_covered_iff (db : List FeatureRecord) :
    check_all_hash_sequences_generated db = true ↔ distinct_hash_count db = 256 := by
  unfold check_all_hash_sequences_generated
  exact beq_iff_eq

theorem runLoop_covered (videos : List VideoInput) (i : Nat) (db : List FeatureRecord)
    (fi : Nat) (st : String) (h : distinct_hash_count db = 256) :
    runLoop videos i db fi st = ([], db, fi, st) := by
  cases videos with
  | nil => rfl
  | cons v rest =>
    unfold runLoop
    rw [if_pos ((check_covered_iff db).mpr h)]

/-- C4: the coverage condition `distinct_hash_count() == 256` is exactly what
`check_all_hash_sequences_generated` tests, it is consulted once per video
before that video's frame extraction (the check guards the whole loop body),
and from any point of any run - fresh or resumed - at which the store already
holds 256 distinct byte sequences, no frame extraction is attempted for the
remaining videos and the store is left untouched. -/
theorem coverage_stops_further_extraction (videos : List VideoInput) (i : Nat)
    (db : List FeatureRecord) (fi : Nat) (st : String)
    (h : distinct_hash_count db = 256) :
    (∀ db2 : List FeatureRecord,
        check_all_hash_sequences_generated db2 = true ↔ distinct_hash_count db2 = 256) ∧
    (runLoop videos i db fi st).1.filter isExtractFramesEvent = [] ∧
    (runLoop videos i db fi st).2.1 = db := by
  refine ⟨check_covered_iff, ?_, ?_⟩
  · rw [runLoop_covered videos i db fi st h]
    rfl
  · rw [runLoop_covered videos i db fi st h]

theorem fullDb_distinct : distinct_hash_count fullDb = 256 := by
  have h : fullDb.filterMap (fun r => r.byteSequence) = allHash8 := by
    unfold fullDb
    rw [List.filterMap_map]
    exact List.filterMap_some allHash8
  unfold distinct_hash_count
  rw [h, List.dedup_eq_self.mpr allHash8_nodup, allHash8_length]

/-- Witness for C4 at a concrete fully covered store. -/
theorem coverage_stops_further_extraction_witness :
    distinct_hash_count fullDb = 256 ∧
    (runLoop [vidA, vidB] 0 fullDb 0 "SIFT").1.filter isExtractFramesEvent = [] := by
  refine ⟨fullDb_distinct, ?_⟩
  exact (coverage_stops_further_extraction [vidA, vidB] 0 fullDb 0 "SIFT" fullDb_distinct).2.1

/-! ### C2: the resumption rule, evaluated on the code -/

/-- C2: the checkpoint's resumption rule fails on the code.  With persisted
state `{video_index: 1, frame_index: 0, feature_stage: "SIFT"}` the loop
still processes video 0 (first conjunct: video 0's first SIFT hash is
attempted; the loop never consults `video_index`).  With persisted state
`{video_index: 0, frame_index: 1, feature_stage: "STE"}` - the claim's own
scenario - the STE stage does *not* resume at unit index 1: unit 0 is
recomputed and re-attempted (second conjunct), because the STE loop
enumerates from 0 and ignores `frame_index`.  The part of the rule that does
hold is stage skipping: resuming into STE attempts no SIFT insert for the
first processed video (third conjunct). -/
theorem resumption_rule_on_code :
    (Event.insertAttempt ⟨"00000001", 1, "SIFT", 0⟩ ∈
        (video_retrieval_database_construction [vidA, vidB] (some ⟨1, 0, "SIFT"⟩) []).1) ∧
    (Event.insertAttempt ⟨"00001001", 1, "STE", 0⟩ ∈
        (video_retrieval_database_construction [vidA] (some ⟨0, 1, "STE"⟩) []).1) ∧
    ((video_retrieval_database_construction [vidA] (some ⟨0, 1, "STE"⟩) []).1.filter
        isSiftInsertEvent = []) := by
  with_unfolding_all decide

/-! ### C8: transient artifact cleanup -/

/-- C8 counterexample: with two videos and an empty store, the first video's
frame directory and audio file are never deleted - the only deletions are the
last video's artifacts, and they happen once, after the loop. -/
theorem artifacts_not_deleted_per_video :
    Event.deleteDirectory "Processed/frames_a" ∉
      (video_retrieval_database_construction [vidA, vidB] none []).1 ∧
    Event.deleteFiles ["Videos/a.wav"] ∉
      (video_retrieval_database_construction [vidA, vidB] none []).1 ∧
    (video_retrieval_database_construction [vidA, vidB] none []).1.filter isDeleteEvent =
      [Event.deleteDirectory "Processed/frames_b", Event.deleteFiles ["Videos/b.wav"]] := by
  with_unfolding_all decide

/-! ### Shape of the event trace -/

theorem join_singleton (s : String) : String.join [s] = s := rfl

theorem snd_mem_of_mem_enumFrom {α : Type} {n : Nat} {l : List α} {p : Nat × α}
    (h : p ∈ List.enumFrom n l) : p.2 ∈ l := by
  have := List.mem_map_of_mem Prod.snd h
  rwa [List.enumFrom_map_snd] at this

theorem mem_siftStage {e : Event} {i vid : Nat} {frames : List (Option ℚ)} {fi : Nat}
    (he : e ∈ siftStage i vid frames fi) :
    (∃ c : InsertCall, e = Event.insertAttempt c ∧ c.feature_id = "SIFT" ∧
        isBin8 c.byte_sequence ∧ c.byte_sequence ∈ allHash8) ∨
    (∃ p : Progress, e = Event.saveUnit p ∧ p.video_index = i ∧ p.feature_stage = "SIFT") := by
  unfold siftStage at he
  rw [List.mem_flatten] at he
  obtain ⟨l, hl, hel⟩ := he
  rw [List.mem_map] at hl
  obtain ⟨ju, _, rfl⟩ := hl
  simp only [List.mem_cons, List.not_mem_nil, or_false] at hel
  rcases hel with rfl | rfl
  · left
    refine ⟨_, rfl, rfl, ?_, ?_⟩
    · rw [join_singleton]
      exact sift_hash_isBin8 ju.2
    · rw [join_singleton]
      exact sift_hash_mem_allHash8 ju.2
  · right
    exact ⟨_, rfl, rfl, rfl⟩

theorem mem_steStage {e : Event} {i vid : Nat} {audio : List ℚ}
    (he : e ∈ steStage i vid audio) :
    (∃ c : InsertCall, e = Event.insertAttempt c ∧ c.feature_id = "STE" ∧
        isBin8 c.byte_sequence ∧ c.byte_sequence ∈ allHash8) ∨
    (∃ p : Progress, e = Event.saveUnit p ∧ p.video_index = i ∧ p.feature_stage = "STE") := by
  unfold steStage at he
  rw [List.mem_flatten] at he
  obtain ⟨l, hl, hel⟩ := he
  rw [List.mem_map] at hl
  obtain ⟨jh, hjh, rfl⟩ := hl
  simp only [List.mem_cons, List.not_mem_nil, or_false] at hel
  have hmem : jh.2 ∈ calculate_ste_hash audio 2048 := snd_mem_of_mem_enumFrom hjh
  rcases hel with rfl | rfl
  · left
    refine ⟨_, rfl, rfl, ?_, ?_⟩
    · rw [join_singleton]
      exact (ste_hash_mem hmem).1
    · rw [join_singleton]
      exact (ste_hash_mem hmem).2
  · right
    exact ⟨_, rfl, rfl, rfl⟩

theorem mem_dwtStage {e : Event} {i vid : Nat} {dwtA dwtD : List ℚ}
    (he : e ∈ dwtStage i vid dwtA dwtD) :
    (∃ c : InsertCall, e = Event.insertAttempt c ∧ c.feature_id = "DWT" ∧
        isBin8 c.byte_sequence ∧ c.byte_sequence ∈ allHash8) ∨
    (∃ p : Progress, e = Event.saveUnit p ∧ p.video_index = i ∧ p.feature_stage = "DWT") := by
  unfold dwtStage at he
  rw [List.mem_flatten] at he
  obtain ⟨l, hl, hel⟩ := he
  rw [List.mem_map] at hl
  obtain ⟨jh, hjh, rfl⟩ := hl
  simp only [List.mem_cons, List.not_mem_nil, or_false] at hel
  have hmem : jh.2 ∈ calculate_dwt_hash dwtA dwtD := snd_mem_of_mem_enumFrom hjh
  rcases hel with rfl | rfl
  · left
    refine ⟨_, rfl, rfl, ?_, ?_⟩
    · rw [join_singleton]
      exact (dwt_hash_mem hmem).1
    · rw [join_singleton]
      exact (dwt_hash_mem hmem).2
  · right
    exact ⟨_, rfl, rfl, rfl⟩

/-- Every event of a loop body is an extraction, an insert attempt of an
8-bit byte sequence, a per-unit save, or a transition save. -/
theorem mem_processVideoEvents {e : Event} {i : Nat} {v : VideoInput} {fi : Nat} {st : String}
    (he : e ∈ (processVideoEvents i v fi st).1) :
    e = Event.extractFrames i v.frame_dir ∨ e = Event.extractAudio i v.audio_path ∨
    (∃ c : InsertCall, e = Event.insertAttempt c ∧
        isBin8 c.byte_sequence ∧ c.byte_sequence ∈ allHash8) ∨
    (∃ p : Progress, e = Event.saveUnit p) ∨
    (∃ p : Progress, e = Event.saveTransition p) := by
  unfold processVideoEvents at he
  simp only [List.mem_append, List.mem_singleton] at he
  rcases he with ((((rfl | he) | rfl) | he) | he)
  · exact Or.inl rfl
  · unfold siftBlockEvents at he
    split at he
    · rcases List.mem_append.mp he with he | he
      · rcases mem_siftStage he with ⟨c, rfl, _, hb, hm⟩ | ⟨p, rfl, _⟩
        · exact Or.inr (Or.inr (Or.inl ⟨c, rfl, hb, hm⟩))
        · exact Or.inr (Or.inr (Or.inr (Or.inl ⟨p, rfl⟩)))
      · rw [List.mem_singleton] at he
        subst he
        exact Or.inr (Or.inr (Or.inr (Or.inr ⟨_, rfl⟩)))
    · cases he
  · exact Or.inr (Or.inl rfl)
  · unfold steBlockEvents at he
    split at he
    · rcases List.mem_append.mp he with he | he
      · rcases mem_steStage he with ⟨c, rfl, _, hb, hm⟩ | ⟨p, rfl, _⟩
        · exact Or.inr (Or.inr (Or.inl ⟨c, rfl, hb, hm⟩))
        · exact Or.inr (Or.inr (Or.inr (Or.inl ⟨p, rfl⟩)))
      · rw [List.mem_singleton] at he
        subst he
        exact Or.inr (Or.inr (Or.inr (Or.inr ⟨_, rfl⟩)))
    · cases he
  · unfold dwtBlockEvents at he
    split at he
    · rcases List.mem_append.mp he with he | he
      · rcases mem_dwtStage he with ⟨c, rfl, _, hb, hm⟩ | ⟨p, rfl, _⟩
        · exact Or.inr (Or.inr (Or.inl ⟨c, rfl, hb, hm⟩))
        · exact Or.inr (Or.inr (Or.inr (Or.inl ⟨p, rfl⟩)))
      · rw [List.mem_singleton] at he
        subst he
        exact Or.inr (Or.inr (Or.inr (Or.inr ⟨_, rfl⟩)))
    · cases he

theorem mem_runLoop_events {e : Event} {videos : List VideoInput} {i : Nat}
    {db : List FeatureRecord} {fi : Nat} {st : String}
    (he : e ∈ (runLoop videos i db fi st).1) :
    (∃ j d, e = Event.extractFrames j d) ∨ (∃ j pth, e = Event.extractAudio j pth) ∨
    (∃ c : InsertCall, e = Event.insertAttempt c ∧
        isBin8 c.byte_sequence ∧ c.byte_sequence ∈ allHash8) ∨
    (∃ p : Progress, e = Event.saveUnit p) ∨
    (∃ p : Progress, e = Event.saveTransition p) := by
  induction videos generalizing i db fi st with
  | nil => cases he
  | cons v rest ih =>
    unfold runLoop at he
    split at he
    · cases he
    · rcases List.mem_append.mp he with he | he
      · rcases mem_processVideoEvents he with rfl | rfl | h | h | h
        · exact Or.inl ⟨i, v.frame_dir, rfl⟩
        · exact Or.inr (Or.inl ⟨i, v.audio_path, rfl⟩)
        · exact Or.inr (Or.inr (Or.inl h))
        · exact Or.inr (Or.inr (Or.inr (Or.inl h)))
        · exact Or.inr (Or.inr (Or.inr (Or.inr h)))
      · exact ih he

theorem runLoop_no_delete {e : Event} {videos : List VideoInput} {i : Nat}
    {db : List FeatureRecord} {fi : Nat} {st : String}
    (he : e ∈ (runLoop videos i db fi st).1) : isDeleteEvent e = false := by
  rcases mem_runLoop_events he with ⟨j, d, rfl⟩ | ⟨j, pth, rfl⟩ | ⟨c, rfl, _⟩ | ⟨p, rfl⟩ | ⟨p, rfl⟩
  all_goals rfl

/-- C8 amended: deletions happen only in the cleanup code after the loop, and
they name exactly the artifacts of the *last* processed video: any deleted
directory is the last extracted frame directory, and any deleted file list is
the singleton last extracted audio path.  Artifacts of earlier videos are
never deleted. -/
theorem cleanup_only_last_video (videos : List VideoInput) (p0 : Option Progress)
    (db : List FeatureRecord) (d : String) (ps : List String) :
    (Event.deleteDirectory d ∈ (video_retrieval_database_construction videos p0 db).1 →
      lastExtractedFrameDir
        (runLoop videos 0 db (p0.getD ⟨0, 0, "SIFT"⟩).frame_index
          (p0.getD ⟨0, 0, "SIFT"⟩).feature_stage).1 = some d) ∧
    (Event.deleteFiles ps ∈ (video_retrieval_database_construction videos p0 db).1 →
      ∃ pth, ps = [pth] ∧
        lastExtractedAudioPath
          (runLoop videos 0 db (p0.getD ⟨0, 0, "SIFT"⟩).frame_index
            (p0.getD ⟨0, 0, "SIFT"⟩).feature_stage).1 = some pth) := by
  unfold video_retrieval_database_construction
  constructor
  · intro hd
    rcases List.mem_append.mp hd with hd | hd
    · exact absurd (runLoop_no_delete hd) (by simp [isDeleteEvent])
    · rcases List.mem_append.mp hd with hd | hd
      · revert hd
        split
        · intro hd
          rw [List.mem_singleton] at hd
          cases hd
          assumption
        · intro hd
          cases hd
      · revert hd
        split
        · intro hd
          rw [List.mem_singleton] at hd
          cases hd
        · intro hd
          cases hd
  · intro hp
    rcases List.mem_append.mp hp with hp | hp
    · exact absurd (runLoop_no_delete hp) (by simp [isDeleteEvent])
    · rcases List.mem_append.mp hp with hp | hp
      · revert hp
        split
        · intro hp
          rw [List.mem_singleton] at hp
          cases hp
        · intro hp
          cases hp
      · revert hp
        split
        · rename_i pth heq
          intro hp
          rw [List.mem_singleton] at hp
          cases hp
          exact ⟨pth, rfl, heq⟩
        · intro hp
          cases hp

/-- Witness for the amended C8 theorem at the two-video corpus. -/
theorem cleanup_only_last_video_witness :
    (Event.deleteDirectory "Processed/frames_b" ∈
        (video_retrieval_database_construction [vidA, vidB] none []).1) ∧
    lastExtractedFrameDir (runLoop [vidA, vidB] 0 []
        ((none : Option Progress).getD ⟨0, 0, "SIFT"⟩).frame_index
        ((none : Option Progress).getD ⟨0, 0, "SIFT"⟩).feature_stage).1 =
      some "Processed/frames_b" := by
  refine ⟨by with_unfolding_all decide, ?_⟩
  exact (cleanup_only_last_video [vidA, vidB] none [] "Processed/frames_b" []).1
    (by with_unfolding_all decide)

/-! ### C6: durability of `save_progress` -/

/-- C6 counterexample: `save_progress` does not follow the
write-to-temp-then-rename discipline at any input - its very first operation
is a truncating open of `PROGRESS_FILE` itself - and executing only that
first operation (an interruption concurrent with the save) leaves the
previously valid checkpoint file empty. -/
theorem save_progress_not_temp_rename :
    writesViaTempThenRename PROGRESS_FILE (save_progress_ops ⟨0, 0, "SIFT"⟩) = false ∧
    fsGet (execFileOps [(PROGRESS_FILE, progressToJson ⟨2, 5, "STE"⟩)]
        ((save_progress_ops ⟨3, 0, "SIFT"⟩).take 1)) PROGRESS_FILE = some "" := by
  constructor
  · rfl
  · rfl

/-- C6 amended: `save_progress` overwrites the checkpoint record in place
(truncating open of the final path, one write, close); an interruption
arriving after the truncating open but before the write leaves the file
holding `""`, which is not the serialization of any `CheckpointState`, i.e.
a half-written, unparsable record is possible. -/
theorem save_progress_overwrites_in_place (p q : Progress) (prev : String) :
    save_progress_ops p =
      [FileOp.openTruncate PROGRESS_FILE,
       FileOp.writeChunk PROGRESS_FILE (progressToJson p),
       FileOp.closeFile PROGRESS_FILE] ∧
    fsGet (execFileOps [(PROGRESS_FILE, prev)] ((save_progress_ops p).take 1))
        PROGRESS_FILE = some "" ∧
    progressToJson q ≠ "" := by
  refine ⟨rfl, rfl, ?_⟩
  intro h
  have h1 : (progressToJson q).length = 0 := by rw [h]; rfl
  unfold progressToJson at h1
  simp only [String.length_append] at h1
  have h2 : ("\"\x7d" : String).length = 2 := rfl
  omega

/-- Witness for the amended C6 theorem at concrete inputs. -/
theorem save_progress_overwrites_in_place_witness :
    fsGet (execFileOps [(PROGRESS_FILE, progressToJson ⟨1, 2, "DWT"⟩)]
        ((save_progress_ops ⟨0, 0, "SIFT"⟩).take 1)) PROGRESS_FILE = some "" ∧
    progressToJson ⟨0, 0, "SIFT"⟩ ≠ "" := by
  have h := save_progress_overwrites_in_place ⟨0, 0, "SIFT"⟩ ⟨0, 0, "SIFT"⟩
    (progressToJson ⟨1, 2, "DWT"⟩)
  exact ⟨h.2.1, h.2.2⟩

/-! ### C10: every inserted byte sequence is an 8-bit binary string -/

theorem mem_insert_unique {r : FeatureRecord} {db : List FeatureRecord} {bs : String}
    {v : Nat} {f : String} {p : Nat}
    (h : r ∈ insert_unique_into_database db bs v f p) :
    r ∈ db ∨ r = ⟨some bs, v, f, p⟩ := by
  unfold insert_unique_into_database at h
  split at h
  · rcases List.mem_append.mp h with h | h
    · exact Or.inl h
    · rw [List.mem_singleton] at h
      exact Or.inr h
  · exact Or.inl h

theorem mem_applyEvents {r : FeatureRecord} {db : List FeatureRecord} {evs : List Event}
    (h : r ∈ applyEvents db evs) :
    r ∈ db ∨ ∃ c : InsertCall, Event.insertAttempt c ∈ evs ∧ r = c.record := by
  induction evs generalizing db with
  | nil => exact Or.inl h
  | cons e es ih =>
    have h0 : r ∈ applyEvents (applyEvent db e) es := h
    rcases ih h0 with h1 | ⟨c, hc, hr⟩
    · cases e with
      | insertAttempt c =>
        simp only [applyEvent, update_retrieval_database, join_singleton] at h1
        rcases mem_insert_unique h1 with h2 | h2
        · exact Or.inl h2
        · exact Or.inr ⟨c, List.mem_cons_self _ _, h2⟩
      | extractFrames j d => exact Or.inl h1
      | extractAudio j pth => exact Or.inl h1
      | saveUnit p => exact Or.inl h1
      | saveTransition p => exact Or.inl h1
      | deleteDirectory d => exact Or.inl h1
      | deleteFiles ps => exact Or.inl h1
    · exact Or.inr ⟨c, List.mem_cons_of_mem _ hc, hr⟩

theorem runLoop_db_mem {r : FeatureRecord} {videos : List VideoInput} {i : Nat}
    {db : List FeatureRecord} {fi : Nat} {st : String}
    (h : r ∈ (runLoop videos i db fi st).2.1) :
    r ∈ db ∨ ∃ c : InsertCall, Event.insertAttempt c ∈ (runLoop videos i db fi st).1 ∧
      r = c.record := by
  induction videos generalizing i db fi st with
  | nil => exact Or.inl h
  | cons v rest ih =>
    unfold runLoop at h ⊢
    split at h
    · rename_i hcheck
      rw [if_pos hcheck]
      exact Or.inl h
    · rename_i hcheck
      rw [if_neg hcheck]
      rcases ih h with h1 | ⟨c, hc, hr⟩
      · rcases mem_applyEvents h1 with h2 | ⟨c, hc, hr⟩
        · exact Or.inl h2
        · exact Or.inr ⟨c, List.mem_append.mpr (Or.inl hc), hr⟩
      · exact Or.inr ⟨c, List.mem_append.mpr (Or.inr hc), hr⟩

theorem runLoop_db_bin8 (videos : List VideoInput) (i : Nat) (db : List FeatureRecord)
    (fi : Nat) (st : String) (hdb : Bin8Db db) :
    Bin8Db (runLoop videos i db fi st).2.1 := by
  intro r hr
  rcases runLoop_db_mem hr with h | ⟨c, hc, rfl⟩
  · exact hdb r h
  · rcases mem_runLoop_events hc with h | h | ⟨c2, heq, hb, hm⟩ | h | h
    · obtain ⟨j, d, h⟩ := h; cases h
    · obtain ⟨j, pth, h⟩ := h; cases h
    · cases heq
      exact ⟨c.byte_sequence, rfl, hb, hm⟩
    · obtain ⟨p, h⟩ := h; cases h
    · obtain ⟨p, h⟩ := h; cases h

theorem bin8Db_distinct_le (db : List FeatureRecord) (h : Bin8Db db) :
    distinct_hash_count db ≤ 256 := by
  unfold distinct_hash_count
  set values := db.filterMap (fun r => r.byteSequence) with hv
  have hsub : values.dedup.toFinset ⊆ allHash8.toFinset := by
    intro x hx
    rw [List.mem_toFinset, List.mem_dedup] at hx
    rw [List.mem_toFinset]
    rw [hv, List.mem_filterMap] at hx
    obtain ⟨r, hr, hrx⟩ := hx
    obtain ⟨bs, hbs, _, hmem⟩ := h r hr
    rw [hbs] at hrx
    cases hrx
    exact hmem
  calc values.dedup.length = values.dedup.toFinset.card :=
        (List.toFinset_card_of_nodup (List.nodup_dedup values)).symm
    _ ≤ allHash8.toFinset.card := Finset.card_le_card hsub
    _ ≤ allHash8.length := List.toFinset_card_le allHash8
    _ = 256 := allHash8_length

/-- C10: every byte sequence any of the three stages computes - and hence
every byte sequence the pipeline ever attempts to insert - is a string of
exactly 8 characters drawn from `'0'`/`'1'`, namely the 8-bit rendering of a
value in `0..255` (an element of `allHash8`, which has exactly 256 elements);
consequently a store populated by the pipeline from an 8-bit store holds only
8-bit byte sequences and at most 256 distinct ones, so the full-coverage
condition `distinct_hash_count() == 256` is the attainable maximum (reached
exactly on stores, such as `fullDb`, holding all 256 renderings). -/
theorem pipeline_hashes_are_bin8 :
    (∀ d : Option ℚ, isBin8 (calculate_sift_descriptors d) ∧
        calculate_sift_descriptors d ∈ allHash8) ∧
    (∀ (sig : List ℚ) (fl : Nat) (h : String),
        h ∈ calculate_ste_hash sig fl → isBin8 h ∧ h ∈ allHash8) ∧
    (∀ (a dl : List ℚ) (h : String),
        h ∈ calculate_dwt_hash a dl → isBin8 h ∧ h ∈ allHash8) ∧
    allHash8.length = 256 ∧
    (∀ (videos : List VideoInput) (i : Nat) (db : List FeatureRecord) (fi : Nat) (st : String),
        Bin8Db db →
          Bin8Db (runLoop videos i db fi st).2.1 ∧
          distinct_hash_count (runLoop videos i db fi st).2.1 ≤ 256) ∧
    distinct_hash_count fullDb = 256 := by
  refine ⟨?_, ?_, ?_, allHash8_length, ?_, fullDb_distinct⟩
  · intro d
    exact ⟨sift_hash_isBin8 d, sift_hash_mem_allHash8 d⟩
  · intro sig fl h hh
    exact ste_hash_mem hh
  · intro a dl h hh
    exact dwt_hash_mem hh
  · intro videos i db fi st hdb
    have hb := runLoop_db_bin8 videos i db fi st hdb
    exact ⟨hb, bin8Db_distinct_le _ hb⟩

/-- Witness for C10 at concrete inputs. -/
theorem pipeline_hashes_are_bin8_witness :
    (isBin8 (calculate_sift_descriptors (some 3)) ∧
      calculate_sift_descriptors (some 3) ∈ allHash8) ∧
    ("00001001" ∈ calculate_ste_hash [3] 2048 ∧
      isBin8 "00001001" ∧ "00001001" ∈ allHash8) ∧
    (Bin8Db (runLoop [vidA] 0 [] 0 "SIFT").2.1 ∧
      distinct_hash_count (runLoop [vidA] 0 [] 0 "SIFT").2.1 ≤ 256) := by
  have h := pipeline_hashes_are_bin8
  have hm : "00001001" ∈ calculate_ste_hash [3] 2048 := by with_unfolding_all decide
  refine ⟨h.1 (some 3), ⟨hm, h.2.1 [3] 2048 "00001001" hm⟩, ?_⟩
  exact h.2.2.2.2.1 [vidA] 0 [] 0 "SIFT" (fun r hr => by cases hr)

/-! ### C5: what the interrupt handler saves -/

/-- C5: the checkpoint `handle_interrupt` saves is *not* the
`(video_index, frame_index, feature_stage)` valid as of the last
fully-completed hash unit.  Interrupting a fresh two-video run right after
its 5th unit (video 1's first STE unit), the handler saves
`{video_index: 0, frame_index: 2, feature_stage: "STE"}` - `video_index`
still holds the value loaded at startup and `frame_index` the stale value
left by video 0's SIFT loop - while the state valid as of that unit, as the
per-unit save itself recorded it, is
`{video_index: 1, frame_index: 1, feature_stage: "STE"}`.  The same
staleness shows on a single-video corpus interrupted after unit 3 (frame
index 2 instead of 1). -/
theorem interrupt_checkpoint_stale :
    (interruptedState [vidA, vidB] none [] 5).map Prod.fst =
      some ⟨0, 2, "STE"⟩ ∧
    lastUnitSave (eventsUpToUnit (runLoop [vidA, vidB] 0 [] 0 "SIFT").1 5) =
      some ⟨1, 1, "STE"⟩ ∧
    (interruptedState [vidA] none [] 3).map Prod.fst = some ⟨0, 2, "STE"⟩ ∧
    lastUnitSave (eventsUpToUnit (runLoop [vidA] 0 [] 0 "SIFT").1 3) =
      some ⟨0, 1, "STE"⟩ ∧
    (⟨0, 2, "STE"⟩ : Progress) ≠ ⟨1, 1, "STE"⟩ := by
  with_unfolding_all decide

/-! ### C7: checkpoint monotonicity -/

theorem savesOf_append (l1 l2 : List Event) :
    savesOf (l1 ++ l2) = savesOf l1 ++ savesOf l2 :=
  List.filterMap_append l1 l2 _

theorem savesOf_unitPairs {α : Type} (us : List α) (f : α → InsertCall) (g : α → Progress) :
    savesOf ((us.map (fun u => [Event.insertAttempt (f u), Event.saveUnit (g u)])).flatten) =
      us.map g := by
  induction us with
  | nil => rfl
  | cons u us ih =>
    rw [List.map_cons, List.flatten_cons, savesOf_append, ih]
    rfl

theorem savesOf_siftStage (i vid : Nat) (frames : List (Option ℚ)) (fi : Nat) :
    savesOf (siftStage i vid frames fi) =
      (List.enumFrom fi (frames.drop fi)).map
        (fun ju => (⟨i, ju.1 + 1, "SIFT"⟩ : Progress)) :=
  savesOf_unitPairs (List.enumFrom fi (frames.drop fi))
    (fun ju => ⟨String.join [calculate_sift_descriptors ju.2], vid, "SIFT", ju.1⟩)
    (fun ju => ⟨i, ju.1 + 1, "SIFT"⟩)

theorem savesOf_steStage (i vid : Nat) (audio : List ℚ) :
    savesOf (steStage i vid audio) =
      (calculate_ste_hash audio 2048).enum.map
        (fun jh => (⟨i, jh.1 + 1, "STE"⟩ : Progress)) :=
  savesOf_unitPairs (calculate_ste_hash audio 2048).enum
    (fun jh => ⟨String.join [jh.2], vid, "STE", jh.1⟩)
    (fun jh => ⟨i, jh.1 + 1, "STE"⟩)

theorem savesOf_dwtStage (i vid : Nat) (dwtA dwtD : List ℚ) :
    savesOf (dwtStage i vid dwtA dwtD) =
      (calculate_dwt_hash dwtA dwtD).enum.map
        (fun jh => (⟨i, jh.1 + 1, "DWT"⟩ : Progress)) :=
  savesOf_unitPairs (calculate_dwt_hash dwtA dwtD).enum
    (fun jh => ⟨String.join [jh.2], vid, "DWT", jh.1⟩)
    (fun jh => ⟨i, jh.1 + 1, "DWT"⟩)

theorem savesOf_processVideoEvents (i : Nat) (v : VideoInput) (fi : Nat) (st : String) :
    savesOf (processVideoEvents i v fi st).1 =
      (if st == "SIFT" then
        (List.enumFrom fi (v.frames.drop fi)).map
            (fun ju => (⟨i, ju.1 + 1, "SIFT"⟩ : Progress)) ++ [⟨i, 0, "STE"⟩]
       else []) ++
      (if stageAfterSiftBlock st == "STE" then
        (calculate_ste_hash v.audio 2048).enum.map
            (fun jh => (⟨i, jh.1 + 1, "STE"⟩ : Progress)) ++ [⟨i, 0, "DWT"⟩]
       else []) ++
      (if stageAfterSteBlock (stageAfterSiftBlock st) == "DWT" then
        (calculate_dwt_hash v.dwtA v.dwtD).enum.map
            (fun jh => (⟨i, jh.1 + 1, "DWT"⟩ : Progress)) ++ [⟨i + 1, 0, "SIFT"⟩]
       else []) := by
  have hx : savesOf [Event.extractFrames i v.frame_dir] = [] := rfl
  have ha : savesOf [Event.extractAudio i v.audio_path] = [] := rfl
  have ht : forall p : Progress, savesOf [Event.saveTransition p] = [p] := fun p => rfl
  have hn : savesOf [] = [] := rfl
  simp only [processVideoEvents, siftBlockEvents, steBlockEvents, dwtBlockEvents,
    savesOf_append, apply_ite savesOf, savesOf_siftStage, savesOf_steStage,
    savesOf_dwtStage, hx, ha, ht, hn, List.append_nil, List.nil_append,
    List.append_assoc]

theorem filter_homog (ps : List Progress) (i : Nat) (stg : String)
    (h : ∀ p ∈ ps, p.video_index = i ∧ p.feature_stage = stg) (vv : Nat) (s : String) :
    ps.filter (fun p => p.video_index == vv && p.feature_stage == s) =
      if vv = i ∧ s = stg then ps else [] := by
  split
  · rename_i hc
    rw [List.filter_eq_self]
    intro p hp
    obtain ⟨h1, h2⟩ := h p hp
    simp [h1, h2, hc.1, hc.2]
  · rename_i hc
    rw [List.filter_eq_nil_iff]
    intro p hp hpred
    obtain ⟨h1, h2⟩ := h p hp
    simp only [Bool.and_eq_true, beq_iff_eq] at hpred
    exact hc ⟨by rw [← hpred.1, h1], by rw [← hpred.2, h2]⟩

/-- The monotonicity relation: saves for the same video and stage have
non-decreasing `frame_index`. -/
theorem fst_le_of_mem_enumFrom {α : Type} {p : Nat × α} {n : Nat} {l : List α}
    (h : p ∈ List.enumFrom n l) : n ≤ p.1 := by
  induction l generalizing n with
  | nil => cases h
  | cons x xs ih =>
    rw [List.enumFrom_cons] at h
    rcases List.mem_cons.mp h with rfl | h
    · exact Nat.le_refl n
    · exact Nat.le_of_succ_le (ih h)

theorem pairwise_fst_lt_enumFrom {α : Type} (n : Nat) (l : List α) :
    List.Pairwise (fun a b => a.1 < b.1) (List.enumFrom n l) := by
  induction l generalizing n with
  | nil => exact List.Pairwise.nil
  | cons x xs ih =>
    rw [List.enumFrom_cons]
    refine List.Pairwise.cons ?_ (ih (n + 1))
    intro q hq
    exact Nat.lt_of_lt_of_le (Nat.lt_succ_self n) (fst_le_of_mem_enumFrom hq)

/-- `MonoRel p q`: if `q` belongs to the same `(video_index, feature_stage)`
group as `p`, its `frame_index` is at least that of `p`. -/
def MonoRel (p q : Progress) : Prop :=
  p.video_index = q.video_index → p.feature_stage = q.feature_stage →
    p.frame_index ≤ q.frame_index

theorem pairwise_monoRel_unitSaves {α : Type} (i n : Nat) (stg : String) (l : List α) :
    List.Pairwise MonoRel
      ((List.enumFrom n l).map (fun ju => (⟨i, ju.1 + 1, stg⟩ : Progress))) := by
  refine List.Pairwise.map _ ?_ (pairwise_fst_lt_enumFrom n l)
  intro a b hab
  intro _ _
  exact Nat.succ_le_succ (Nat.le_of_lt hab)

theorem pairwise_monoRel_perVideo (i : Nat) (v : VideoInput) (fi : Nat) (st : String) :
    List.Pairwise MonoRel (savesOf (processVideoEvents i v fi st).1) := by
  rw [savesOf_processVideoEvents, List.append_assoc]
  have hsift : List.Pairwise MonoRel
      ((if st == "SIFT" then
        (List.enumFrom fi (v.frames.drop fi)).map
            (fun ju => (⟨i, ju.1 + 1, "SIFT"⟩ : Progress)) ++ [⟨i, 0, "STE"⟩]
       else []) : List Progress) := by
    split
    · refine List.pairwise_append.mpr
        ⟨pairwise_monoRel_unitSaves i fi "SIFT" (v.frames.drop fi),
         List.pairwise_singleton _ _, ?_⟩
      intro p hp q hq
      rw [List.mem_singleton] at hq
      rw [List.mem_map] at hp
      obtain ⟨ju, _, rfl⟩ := hp
      subst hq
      intro _ hstage
      have h : ("SIFT" : String) = "STE" := hstage
      exact absurd h (by decide)
    · exact List.Pairwise.nil
  have hste : List.Pairwise MonoRel
      ((if stageAfterSiftBlock st == "STE" then
        (calculate_ste_hash v.audio 2048).enum.map
            (fun jh => (⟨i, jh.1 + 1, "STE"⟩ : Progress)) ++ [⟨i, 0, "DWT"⟩]
       else []) : List Progress) := by
    split
    · refine List.pairwise_append.mpr
        ⟨pairwise_monoRel_unitSaves i 0 "STE" (calculate_ste_hash v.audio 2048),
         List.pairwise_singleton _ _, ?_⟩
      intro p hp q hq
      rw [List.mem_singleton] at hq
      rw [List.mem_map] at hp
      obtain ⟨jh, _, rfl⟩ := hp
      subst hq
      intro _ hstage
      have h : ("STE" : String) = "DWT" := hstage
      exact absurd h (by decide)
    · exact List.Pairwise.nil
  have hdwt : List.Pairwise MonoRel
      ((if stageAfterSteBlock (stageAfterSiftBlock st) == "DWT" then
        (calculate_dwt_hash v.dwtA v.dwtD).enum.map
            (fun jh => (⟨i, jh.1 + 1, "DWT"⟩ : Progress)) ++ [⟨i + 1, 0, "SIFT"⟩]
       else []) : List Progress) := by
    split
    · refine List.pairwise_append.mpr
        ⟨pairwise_monoRel_unitSaves i 0 "DWT" (calculate_dwt_hash v.dwtA v.dwtD),
         List.pairwise_singleton _ _, ?_⟩
      intro p hp q hq
      rw [List.mem_singleton] at hq
      rw [List.mem_map] at hp
      obtain ⟨jh, _, rfl⟩ := hp
      subst hq
      intro hvid _
      have h : i = i + 1 := hvid
      omega
    · exact List.Pairwise.nil
  have hcross23 : ∀ p ∈ (if stageAfterSiftBlock st == "STE" then
        (calculate_ste_hash v.audio 2048).enum.map
            (fun jh => (⟨i, jh.1 + 1, "STE"⟩ : Progress)) ++ [⟨i, 0, "DWT"⟩]
       else []),
      ∀ q ∈ (if stageAfterSteBlock (stageAfterSiftBlock st) == "DWT" then
        (calculate_dwt_hash v.dwtA v.dwtD).enum.map
            (fun jh => (⟨i, jh.1 + 1, "DWT"⟩ : Progress)) ++ [⟨i + 1, 0, "SIFT"⟩]
       else []), MonoRel p q := by
    intro p hp q hq
    revert hp hq
    split
    · split
      · intro hp hq
        rcases List.mem_append.mp hp with hp | hp <;>
          rcases List.mem_append.mp hq with hq | hq
        · rw [List.mem_map] at hp hq
          obtain ⟨a, _, rfl⟩ := hp
          obtain ⟨b, _, rfl⟩ := hq
          intro _ hstage
          have h : ("STE" : String) = "DWT" := hstage
          exact absurd h (by decide)
        · rw [List.mem_map] at hp
          rw [List.mem_singleton] at hq
          obtain ⟨a, _, rfl⟩ := hp
          subst hq
          intro hvid _
          have h : i = i + 1 := hvid
          omega
        · rw [List.mem_singleton] at hp
          rw [List.mem_map] at hq
          obtain ⟨b, _, rfl⟩ := hq
          subst hp
          intro _ _
          exact Nat.zero_le _
        · rw [List.mem_singleton] at hp
          rw [List.mem_singleton] at hq
          subst hp
          subst hq
          intro hvid _
          have h : i = i + 1 := hvid
          omega
      · intro _ hq
        cases hq
    · intro hp
      cases hp
  have hcross12 : ∀ p ∈ (if st == "SIFT" then
        (List.enumFrom fi (v.frames.drop fi)).map
            (fun ju => (⟨i, ju.1 + 1, "SIFT"⟩ : Progress)) ++ [⟨i, 0, "STE"⟩]
       else []),
      ∀ q ∈ ((if stageAfterSiftBlock st == "STE" then
        (calculate_ste_hash v.audio 2048).enum.map
            (fun jh => (⟨i, jh.1 + 1, "STE"⟩ : Progress)) ++ [⟨i, 0, "DWT"⟩]
       else []) ++
       (if stageAfterSteBlock (stageAfterSiftBlock st) == "DWT" then
        (calculate_dwt_hash v.dwtA v.dwtD).enum.map
            (fun jh => (⟨i, jh.1 + 1, "DWT"⟩ : Progress)) ++ [⟨i + 1, 0, "SIFT"⟩]
       else []) : List Progress), MonoRel p q := by
    intro p hp q hq
    revert hp
    split
    · intro hp
      rcases List.mem_append.mp hp with hp | hp
      · rw [List.mem_map] at hp
        obtain ⟨a, _, rfl⟩ := hp
        rcases List.mem_append.mp hq with hq | hq
        · revert hq
          split
          · intro hq
            rcases List.mem_append.mp hq with hq | hq
            · rw [List.mem_map] at hq
              obtain ⟨b, _, rfl⟩ := hq
              intro _ hstage
              have h : ("SIFT" : String) = "STE" := hstage
              exact absurd h (by decide)
            · rw [List.mem_singleton] at hq
              subst hq
              intro _ hstage
              have h : ("SIFT" : String) = "DWT" := hstage
              exact absurd h (by decide)
          · intro hq
            cases hq
        · revert hq
          split
          · intro hq
            rcases List.mem_append.mp hq with hq | hq
            · rw [List.mem_map] at hq
              obtain ⟨b, _, rfl⟩ := hq
              intro _ hstage
              have h : ("SIFT" : String) = "DWT" := hstage
              exact absurd h (by decide)
            · rw [List.mem_singleton] at hq
              subst hq
              intro hvid _
              have h : i = i + 1 := hvid
              omega
          · intro hq
            cases hq
      · rw [List.mem_singleton] at hp
        subst hp
        intro _ _
        exact Nat.zero_le _
    · intro hp
      cases hp
  exact List.pairwise_append.mpr
    ⟨hsift, List.pairwise_append.mpr ⟨hste, hdwt, hcross23⟩, hcross12⟩

theorem perVideo_saves_video_or_next (i : Nat) (v : VideoInput) (fi : Nat) (st : String) :
    ∀ p ∈ savesOf (processVideoEvents i v fi st).1,
      p.video_index = i ∨ (p.video_index = i + 1 ∧ p.frame_index = 0) := by
  intro p hp
  rw [savesOf_processVideoEvents] at hp
  rcases List.mem_append.mp hp with hp | hp
  · rcases List.mem_append.mp hp with hp | hp
    · revert hp
      split
      · intro hp
        rcases List.mem_append.mp hp with hp | hp
        · rw [List.mem_map] at hp
          obtain ⟨a, _, rfl⟩ := hp
          exact Or.inl rfl
        · rw [List.mem_singleton] at hp
          subst hp
          exact Or.inl rfl
      · intro hp
        cases hp
    · revert hp
      split
      · intro hp
        rcases List.mem_append.mp hp with hp | hp
        · rw [List.mem_map] at hp
          obtain ⟨a, _, rfl⟩ := hp
          exact Or.inl rfl
        · rw [List.mem_singleton] at hp
          subst hp
          exact Or.inl rfl
      · intro hp
        cases hp
  · revert hp
    split
    · intro hp
      rcases List.mem_append.mp hp with hp | hp
      · rw [List.mem_map] at hp
        obtain ⟨a, _, rfl⟩ := hp
        exact Or.inl rfl
      · rw [List.mem_singleton] at hp
        subst hp
        exact Or.inr ⟨rfl, rfl⟩
    · intro hp
      cases hp

theorem runLoop_saves_video_ge (videos : List VideoInput) (i : Nat)
    (db : List FeatureRecord) (fi : Nat) (st : String) :
    ∀ p ∈ savesOf (runLoop videos i db fi st).1, i ≤ p.video_index := by
  induction videos generalizing i db fi st with
  | nil => intro p hp; cases hp
  | cons v rest ih =>
    intro p hp
    unfold runLoop at hp
    split at hp
    · cases hp
    · rw [savesOf_append] at hp
      rcases List.mem_append.mp hp with hp | hp
      · rcases perVideo_saves_video_or_next i v fi st p hp with h | ⟨h, _⟩ <;> omega
      · have := ih (i + 1) _ _ _ p hp
        omega

theorem pairwise_monoRel_runLoop (videos : List VideoInput) (i : Nat)
    (db : List FeatureRecord) (fi : Nat) (st : String) :
    List.Pairwise MonoRel (savesOf (runLoop videos i db fi st).1) := by
  induction videos generalizing i db fi st with
  | nil => exact List.Pairwise.nil
  | cons v rest ih =>
    unfold runLoop
    split
    · exact List.Pairwise.nil
    · rw [savesOf_append]
      refine List.pairwise_append.mpr ⟨pairwise_monoRel_perVideo i v fi st, ih _ _ _ _, ?_⟩
      intro p hp q hq
      have hq2 := runLoop_saves_video_ge rest (i + 1) _ _ _ q hq
      rcases perVideo_saves_video_or_next i v fi st p hp with h | ⟨h, h0⟩
      · intro hvid _
        omega
      · intro _ _
        rw [h0]
        exact Nat.zero_le _

theorem transition_saves_zero (i : Nat) (v : VideoInput) (fi : Nat) (st : String) :
    ∀ p : Progress, Event.saveTransition p ∈ (processVideoEvents i v fi st).1 →
      p.frame_index = 0 := by
  intro p hp
  unfold processVideoEvents at hp
  simp only [List.mem_append, List.mem_singleton] at hp
  rcases hp with ((((hp | hp) | hp) | hp) | hp)
  · cases hp
  · unfold siftBlockEvents at hp
    split at hp
    · rcases List.mem_append.mp hp with hp | hp
      · rcases mem_siftStage hp with ⟨c, heq, _⟩ | ⟨q, heq, _⟩ <;> cases heq
      · rw [List.mem_singleton] at hp
        cases hp
        rfl
    · cases hp
  · cases hp
  · unfold steBlockEvents at hp
    split at hp
    · rcases List.mem_append.mp hp with hp | hp
      · rcases mem_steStage hp with ⟨c, heq, _⟩ | ⟨q, heq, _⟩ <;> cases heq
      · rw [List.mem_singleton] at hp
        cases hp
        rfl
    · cases hp
  · unfold dwtBlockEvents at hp
    split at hp
    · rcases List.mem_append.mp hp with hp | hp
      · rcases mem_dwtStage hp with ⟨c, heq, _⟩ | ⟨q, heq, _⟩ <;> cases heq
      · rw [List.mem_singleton] at hp
        cases hp
        rfl
    · cases hp

/-- C7: across the `save_progress` calls of any run of the loop (fresh or
resumed, over any corpus), every save made at a stage or video transition
records `frame_index = 0`, and for every fixed `(video_index, feature_stage)`
group the recorded `frame_index` values are non-decreasing in save order. -/
theorem checkpoint_monotonicity (videos : List VideoInput) (i : Nat)
    (db : List FeatureRecord) (fi : Nat) (st : String) :
    (∀ p : Progress,
        Event.saveTransition p ∈ (runLoop videos i db fi st).1 → p.frame_index = 0) ∧
    ∀ (vv : Nat) (s : String),
      List.Sorted (· ≤ ·)
        (((savesOf (runLoop videos i db fi st).1).filter
            (fun p => p.video_index == vv && p.feature_stage == s)).map
          (fun p => p.frame_index)) := by
  constructor
  · induction videos generalizing i db fi st with
    | nil => intro p hp; cases hp
    | cons v rest ih =>
      intro p hp
      unfold runLoop at hp
      split at hp
      · cases hp
      · rcases List.mem_append.mp hp with hp | hp
        · exact transition_saves_zero i v fi st p hp
        · exact ih (i + 1) _ _ _ p hp
  · intro vv s
    have h1 := pairwise_monoRel_runLoop videos i db fi st
    have h2 := h1.filter (fun p => p.video_index == vv && p.feature_stage == s)
    have h3 : List.Pairwise (fun p q : Progress => p.frame_index ≤ q.frame_index)
        ((savesOf (runLoop videos i db fi st).1).filter
          (fun p => p.video_index == vv && p.feature_stage == s)) := by
      refine List.Pairwise.imp_of_mem ?_ h2
      intro p q hp hq hpq
      have hp2 := (List.mem_filter.mp hp).2
      have hq2 := (List.mem_filter.mp hq).2
      simp only [Bool.and_eq_true, beq_iff_eq] at hp2 hq2
      exact hpq (by rw [hp2.1, hq2.1]) (by rw [hp2.2, hq2.2])
    exact List.Pairwise.map _ (fun a b h => h) h3

/-- Witness for C7 on a concrete two-video run resumed from
`{video_index: 0, frame_index: 1, feature_stage: "SIFT"}`. -/
theorem checkpoint_monotonicity_witness :
    (∀ p : Progress,
        Event.saveTransition p ∈ (runLoop [vidA, vidB] 0 [] 1 "SIFT").1 →
          p.frame_index = 0) ∧
    List.Sorted (· ≤ ·)
      (((savesOf (runLoop [vidA, vidB] 0 [] 1 "SIFT").1).filter
          (fun p => p.video_index == 0 && p.feature_stage == "SIFT")).map
        (fun p => p.frame_index)) := by
  have h := checkpoint_monotonicity [vidA, vidB] 0 [] 1 "SIFT"
  exact ⟨h.1, h.2 0 "SIFT"⟩

/-! ### C1, part 1: what a sequence of insert calls leaves in the store -/

theorem oor_none_right {α : Type} (a : Option α) : oor a none = a := by
  cases a <;> rfl

theorem oor_assoc {α : Type} (a b c : Option α) :
    oor (oor a b) c = oor a (oor b c) := by
  cases a <;> rfl

theorem findRec_append (db1 db2 : List FeatureRecord) (bs : String) :
    findRec (db1 ++ db2) bs = oor (findRec db1 bs) (findRec db2 bs) := by
  unfold findRec
  rw [List.find?_append]
  cases db1.find? (fun r => r.byteSequence == some bs) <;> rfl

theorem findRec_isSome_of_present {db : List FeatureRecord} {bs : String}
    (h : db.countP (fun r => r.byteSequence == some bs) ≠ 0) :
    ∃ r, findRec db bs = some r := by
  have hpos : 0 < db.countP (fun r => r.byteSequence == some bs) := Nat.pos_of_ne_zero h
  rw [List.countP_pos_iff] at hpos
  obtain ⟨r, hr, hp⟩ := hpos
  cases hfind : db.find? (fun r => r.byteSequence == some bs) with
  | none =>
    rw [List.find?_eq_none] at hfind
    exact absurd hp (hfind r hr)
  | some x => exact ⟨x, hfind⟩

theorem findRec_none_of_absent {db : List FeatureRecord} {bs : String}
    (h : db.countP (fun r => r.byteSequence == some bs) = 0) :
    findRec db bs = none := by
  unfold findRec
  rw [List.find?_eq_none]
  intro r hr
  rw [List.countP_eq_zero] at h
  exact h r hr

theorem firstNew_cons_of_ne {c : InsertCall} {cs : List InsertCall} {bs : String}
    (h : c.byte_sequence ≠ bs) : firstNew (c :: cs) bs = firstNew cs bs := by
  unfold firstNew
  rw [List.find?_cons_of_neg]
  simp only [beq_iff_eq]
  exact h

theorem findRec_applyInserts (as : List InsertCall) (db : List FeatureRecord) (bs : String) :
    findRec (applyInserts db as) bs = oor (findRec db bs) (firstNew as bs) := by
  induction as generalizing db with
  | nil =>
    have h0 : firstNew [] bs = none := rfl
    rw [h0, oor_none_right]
    rfl
  | cons c cs ih =>
    have hstep : applyInserts db (c :: cs) =
        applyInserts (insert_unique_into_database db c.byte_sequence c.video_id
          c.feature_id c.position_id) cs := rfl
    rw [hstep, ih]
    unfold insert_unique_into_database
    split
    · rename_i hzero
      rw [findRec_append]
      by_cases hbs : c.byte_sequence = bs
      · subst hbs
        have h1 : findRec db c.byte_sequence = none := findRec_none_of_absent hzero
        have h2 : findRec [(⟨some c.byte_sequence, c.video_id, c.feature_id,
            c.position_id⟩ : FeatureRecord)] c.byte_sequence = some c.record := by
          unfold findRec
          rw [List.find?_cons_of_pos]
          · rfl
          · simp
        have h3 : firstNew (c :: cs) c.byte_sequence = some c.record := by
          unfold firstNew
          rw [List.find?_cons_of_pos]
          · rfl
          · simp
        rw [h1, h2, h3]
        rfl
      · have h2 : findRec [(⟨some c.byte_sequence, c.video_id, c.feature_id,
            c.position_id⟩ : FeatureRecord)] bs = none := by
          unfold findRec
          rw [List.find?_cons_of_neg]
          · rfl
          · simp only [beq_iff_eq, Option.some.injEq]
            exact hbs
        rw [h2, oor_none_right, firstNew_cons_of_ne hbs]
    · rename_i hnz
      by_cases hbs : c.byte_sequence = bs
      · subst hbs
        obtain ⟨r, hr⟩ := findRec_isSome_of_present hnz
        rw [hr]
        rfl
      · rw [firstNew_cons_of_ne hbs]

theorem mem_applyInserts {r : FeatureRecord} {db : List FeatureRecord} {as : List InsertCall}
    (h : r ∈ applyInserts db as) :
    r ∈ db ∨ ∃ c ∈ as, r = c.record := by
  induction as generalizing db with
  | nil => exact Or.inl h
  | cons c cs ih =>
    have hstep : applyInserts db (c :: cs) =
        applyInserts (insert_unique_into_database db c.byte_sequence c.video_id
          c.feature_id c.position_id) cs := rfl
    rw [hstep] at h
    rcases ih h with h1 | ⟨c2, hc2, hr⟩
    · rcases mem_insert_unique h1 with h2 | h2
      · exact Or.inl h2
      · exact Or.inr ⟨c, List.mem_cons_self _ _, h2⟩
    · exact Or.inr ⟨c2, List.mem_cons_of_mem _ hc2, hr⟩

theorem findRec_eq_some_of_mem {db : List FeatureRecord} {r : FeatureRecord} {bs : String}
    (hd : DedupInv db) (hr : r ∈ db) (hbs : r.byteSequence = some bs) :
    findRec db bs = some r := by
  induction db with
  | nil => cases hr
  | cons a l ih =>
    rcases List.mem_cons.mp hr with rfl | hr2
    · unfold findRec
      rw [List.find?_cons_of_pos]
      simp [hbs]
    · have hne : a.byteSequence ≠ r.byteSequence := (List.pairwise_cons.mp hd).1 r hr2
      unfold findRec
      rw [List.find?_cons_of_neg]
      · exact ih (List.pairwise_cons.mp hd).2 hr2
      · simp only [beq_iff_eq]
        intro hc
        exact hne (hc.trans hbs.symm)

theorem mem_iff_of_findRec_eq {d1 d2 : List FeatureRecord}
    (h1 : DedupInv d1) (h2 : DedupInv d2)
    (hsome1 : ∀ r ∈ d1, ∃ bs, r.byteSequence = some bs)
    (hsome2 : ∀ r ∈ d2, ∃ bs, r.byteSequence = some bs)
    (h : ∀ bs, findRec d1 bs = findRec d2 bs) :
    ∀ r, r ∈ d1 ↔ r ∈ d2 := by
  intro r
  constructor
  · intro hr
    obtain ⟨bs, hbs⟩ := hsome1 r hr
    have hf := findRec_eq_some_of_mem h1 hr hbs
    rw [h bs] at hf
    exact List.mem_of_find?_eq_some hf
  · intro hr
    obtain ⟨bs, hbs⟩ := hsome2 r hr
    have hf := findRec_eq_some_of_mem h2 hr hbs
    rw [← h bs] at hf
    exact List.mem_of_find?_eq_some hf

/-! ### C1, part 2: runs compute fold-of-attempts, breaks are no-ops -/

theorem applyEvents_append (db : List FeatureRecord) (l1 l2 : List Event) :
    applyEvents db (l1 ++ l2) = applyEvents (applyEvents db l1) l2 :=
  List.foldl_append _ _ l1 l2

theorem applyInserts_append (db : List FeatureRecord) (l1 l2 : List InsertCall) :
    applyInserts db (l1 ++ l2) = applyInserts (applyInserts db l1) l2 :=
  List.foldl_append _ _ l1 l2

theorem applyEvents_eq_applyInserts (evs : List Event) (db : List FeatureRecord) :
    applyEvents db evs = applyInserts db (attemptsOf evs) := by
  induction evs generalizing db with
  | nil => rfl
  | cons e es ih =>
    have hstep : applyEvents db (e :: es) = applyEvents (applyEvent db e) es := rfl
    rw [hstep, ih]
    cases e with
    | insertAttempt c =>
      have h1 : applyEvent db (Event.insertAttempt c) =
          insert_unique_into_database db c.byte_sequence c.video_id c.feature_id
            c.position_id := by
        simp only [applyEvent, update_retrieval_database, join_singleton]
      rw [h1]
      rfl
    | extractFrames j d => rfl
    | extractAudio j pth => rfl
    | saveUnit p => rfl
    | saveTransition p => rfl
    | deleteDirectory d => rfl
    | deleteFiles ps => rfl

theorem runLoop_db_eq_fold (videos : List VideoInput) (i : Nat) (db : List FeatureRecord)
    (fi : Nat) (st : String) :
    (runLoop videos i db fi st).2.1 = applyEvents db (runLoop videos i db fi st).1 := by
  induction videos generalizing i db fi st with
  | nil => rfl
  | cons v rest ih =>
    unfold runLoop
    split
    · rfl
    · rw [applyEvents_append]
      exact ih _ _ _ _

theorem runLoop_events_isPrefix (videos : List VideoInput) (i : Nat)
    (db : List FeatureRecord) (fi : Nat) (st : String) :
    (runLoop videos i db fi st).1 <+: genEvents videos i fi st := by
  induction videos generalizing i db fi st with
  | nil => exact List.nil_prefix
  | cons v rest ih =>
    unfold runLoop genEvents
    split
    · exact List.nil_prefix
    · obtain ⟨t, ht⟩ := ih (i + 1) (applyEvents db (processVideoEvents i v fi st).1)
        (processVideoEvents i v fi st).2.1 (processVideoEvents i v fi st).2.2
      exact ⟨t, by rw [List.append_assoc, ht]⟩

theorem mem_genEvents {e : Event} {videos : List VideoInput} {i : Nat} {fi : Nat} {st : String}
    (he : e ∈ genEvents videos i fi st) :
    (∃ j d, e = Event.extractFrames j d) ∨ (∃ j pth, e = Event.extractAudio j pth) ∨
    (∃ c : InsertCall, e = Event.insertAttempt c ∧
        isBin8 c.byte_sequence ∧ c.byte_sequence ∈ allHash8) ∨
    (∃ p : Progress, e = Event.saveUnit p) ∨
    (∃ p : Progress, e = Event.saveTransition p) := by
  induction videos generalizing i fi st with
  | nil => cases he
  | cons v rest ih =>
    unfold genEvents at he
    rcases List.mem_append.mp he with he | he
    · rcases mem_processVideoEvents he with rfl | rfl | h | h | h
      · exact Or.inl ⟨i, v.frame_dir, rfl⟩
      · exact Or.inr (Or.inl ⟨i, v.audio_path, rfl⟩)
      · exact Or.inr (Or.inr (Or.inl h))
      · exact Or.inr (Or.inr (Or.inr (Or.inl h)))
      · exact Or.inr (Or.inr (Or.inr (Or.inr h)))
    · exact ih he

theorem mem_attemptsOf {c : InsertCall} {evs : List Event} (h : c ∈ attemptsOf evs) :
    Event.insertAttempt c ∈ evs := by
  unfold attemptsOf at h
  rw [List.mem_filterMap] at h
  obtain ⟨e, he, hc⟩ := h
  cases e with
  | insertAttempt c2 =>
    simp only [Option.some.injEq] at hc
    subst hc
    exact he
  | extractFrames j d => exact Option.noConfusion hc
  | extractAudio j pth => exact Option.noConfusion hc
  | saveUnit p => exact Option.noConfusion hc
  | saveTransition p => exact Option.noConfusion hc
  | deleteDirectory d => exact Option.noConfusion hc
  | deleteFiles ps => exact Option.noConfusion hc

theorem attemptsOf_genEvents_bin8 (videos : List VideoInput) (i : Nat) (fi : Nat)
    (st : String) :
    ∀ c ∈ attemptsOf (genEvents videos i fi st), c.byte_sequence ∈ allHash8 := by
  intro c hc
  have he := mem_attemptsOf hc
  rcases mem_genEvents he with ⟨j, d, h⟩ | ⟨j, pth, h⟩ | ⟨c2, heq, _, hm⟩ | ⟨p, h⟩ | ⟨p, h⟩
  · cases h
  · cases h
  · cases heq
    exact hm
  · cases h
  · cases h

theorem complete_of_distinct_256 {db : List FeatureRecord} (hb : Bin8Db db)
    (hc : distinct_hash_count db = 256) :
    ∀ bs ∈ allHash8, ∃ r ∈ db, r.byteSequence = some bs := by
  intro bs hbs
  have hsub : (db.filterMap (fun r => r.byteSequence)).dedup.toFinset ⊆
      allHash8.toFinset := by
    intro x hx
    rw [List.mem_toFinset, List.mem_dedup, List.mem_filterMap] at hx
    obtain ⟨r, hr, hrx⟩ := hx
    obtain ⟨bs2, hbs2, _, hmem⟩ := hb r hr
    rw [hbs2] at hrx
    cases hrx
    rw [List.mem_toFinset]
    exact hmem
  have hcard : allHash8.toFinset.card ≤
      (db.filterMap (fun r => r.byteSequence)).dedup.toFinset.card := by
    rw [List.toFinset_card_of_nodup
      (List.nodup_dedup (db.filterMap (fun r => r.byteSequence)))]
    unfold distinct_hash_count at hc
    rw [hc]
    calc allHash8.toFinset.card ≤ allHash8.length := List.toFinset_card_le allHash8
      _ = 256 := allHash8_length
  have heq := Finset.eq_of_subset_of_card_le hsub hcard
  have hbs2 : bs ∈ (db.filterMap (fun r => r.byteSequence)).dedup.toFinset := by
    rw [heq, List.mem_toFinset]
    exact hbs
  rw [List.mem_toFinset, List.mem_dedup, List.mem_filterMap] at hbs2
  obtain ⟨r, hr, hrx⟩ := hbs2
  exact ⟨r, hr, hrx⟩

theorem applyInserts_complete_noop {db : List FeatureRecord} (hb : Bin8Db db)
    (hc : distinct_hash_count db = 256) (as : List InsertCall)
    (has : ∀ c ∈ as, c.byte_sequence ∈ allHash8) :
    applyInserts db as = db := by
  induction as with
  | nil => rfl
  | cons c cs ih =>
    have hstep : applyInserts db (c :: cs) =
        applyInserts (insert_unique_into_database db c.byte_sequence c.video_id
          c.feature_id c.position_id) cs := rfl
    have hpresent := complete_of_distinct_256 hb hc c.byte_sequence
      (has c (List.mem_cons_self _ _))
    rw [hstep, insert_unique_of_present _ _ _ _ _ hpresent]
    exact ih (fun c2 hc2 => has c2 (List.mem_cons_of_mem _ hc2))

theorem bin8_applyEvents_processVideo {db : List FeatureRecord} (hb : Bin8Db db)
    (i : Nat) (v : VideoInput) (fi : Nat) (st : String) :
    Bin8Db (applyEvents db (processVideoEvents i v fi st).1) := by
  intro r hr
  rcases mem_applyEvents hr with h | ⟨c, hc, rfl⟩
  · exact hb r h
  · rcases mem_processVideoEvents hc with h | h | ⟨c2, heq, hbin, hm⟩ | ⟨p, h⟩ | ⟨p, h⟩
    · cases h
    · cases h
    · cases heq
      exact ⟨c.byte_sequence, rfl, hbin, hm⟩
    · cases h
    · cases h

theorem runLoop_db_eq_genEvents (videos : List VideoInput) (i : Nat)
    (db : List FeatureRecord) (fi : Nat) (st : String) (hb : Bin8Db db) :
    (runLoop videos i db fi st).2.1 = applyEvents db (genEvents videos i fi st) := by
  induction videos generalizing i db fi st with
  | nil => rfl
  | cons v rest ih =>
    unfold runLoop genEvents
    split
    · rename_i hcheck
      have hc : distinct_hash_count db = 256 := (check_covered_iff db).mp hcheck
      show db = applyEvents db (genEvents (v :: rest) i fi st)
      rw [applyEvents_eq_applyInserts,
        applyInserts_complete_noop hb hc _ (attemptsOf_genEvents_bin8 (v :: rest) i fi st)]
    · rw [applyEvents_append]
      exact ih _ _ _ _ (bin8_applyEvents_processVideo hb i v fi st)

/-! ### C1, part 3: cutting a trace at its k-th completed unit -/

theorem unitCount_append (a b : List Event) :
    unitCount (a ++ b) = unitCount a + unitCount b :=
  List.countP_append _ _ _

theorem unitCount_unitPairs {α : Type} (us : List α) (f : α → InsertCall) (g : α → Progress) :
    unitCount ((us.map (fun u =>
      [Event.insertAttempt (f u), Event.saveUnit (g u)])).flatten) = us.length := by
  induction us with
  | nil => rfl
  | cons u us ih =>
    rw [List.map_cons, List.flatten_cons, unitCount_append, ih]
    have h1 : unitCount [Event.insertAttempt (f u), Event.saveUnit (g u)] = 1 := rfl
    rw [h1, List.length_cons]
    omega

theorem eventsUpToUnit_zero (evs : List Event) : eventsUpToUnit evs 0 = [] := by
  cases evs with
  | nil => rfl
  | cons e es => cases e <;> rfl

theorem eventsUpToUnit_cons_unit_one (p : Progress) (es : List Event) :
    eventsUpToUnit (Event.saveUnit p :: es) 1 = [Event.saveUnit p] := rfl

theorem eventsUpToUnit_cons_unit_succ (p : Progress) (es : List Event) (k : Nat) :
    eventsUpToUnit (Event.saveUnit p :: es) (k + 2) =
      Event.saveUnit p :: eventsUpToUnit es (k + 1) := rfl

theorem eventsUpToUnit_cons_other {e : Event} (es : List Event) (k : Nat)
    (h : isUnitSaveEvent e = false) :
    eventsUpToUnit (e :: es) (k + 1) = e :: eventsUpToUnit es (k + 1) := by
  cases e with
  | saveUnit p => cases h
  | extractFrames j d => rfl
  | extractAudio j pth => rfl
  | insertAttempt c => rfl
  | saveTransition p => rfl
  | deleteDirectory d => rfl
  | deleteFiles ps => rfl

theorem eventsUpToUnit_append_left (a b : List Event) (k : Nat) (h1 : 1 ≤ k)
    (h2 : k ≤ unitCount a) : eventsUpToUnit (a ++ b) k = eventsUpToUnit a k := by
  induction a generalizing k with
  | nil =>
    have : unitCount ([] : List Event) = 0 := rfl
    omega
  | cons e es ih =>
    cases he : isUnitSaveEvent e with
    | false =>
      obtain ⟨k2, rfl⟩ : ∃ k2, k = k2 + 1 := ⟨k - 1, by omega⟩
      rw [List.cons_append, eventsUpToUnit_cons_other _ _ he,
        eventsUpToUnit_cons_other _ _ he]
      have hcount : unitCount (e :: es) = unitCount es := by
        unfold unitCount
        rw [List.countP_cons_of_neg]
        simp [he]
      rw [ih (k2 + 1) h1 (by omega)]
    | true =>
      cases e with
      | saveUnit p =>
        have hcount : unitCount (Event.saveUnit p :: es) = unitCount es + 1 := by
          unfold unitCount
          rw [List.countP_cons_of_pos]
          rfl
        match k, h1 with
        | 1, _ => rw [List.cons_append, eventsUpToUnit_cons_unit_one,
            eventsUpToUnit_cons_unit_one]
        | k2 + 2, _ =>
          rw [List.cons_append, eventsUpToUnit_cons_unit_succ,
            eventsUpToUnit_cons_unit_succ, ih (k2 + 1) (by omega) (by omega)]
      | extractFrames j d => cases he
      | extractAudio j pth => cases he
      | insertAttempt c => cases he
      | saveTransition p => cases he
      | deleteDirectory d => cases he
      | deleteFiles ps => cases he

theorem eventsUpToUnit_append_right (a b : List Event) (k : Nat) (h : unitCount a < k) :
    eventsUpToUnit (a ++ b) k = a ++ eventsUpToUnit b (k - unitCount a) := by
  induction a generalizing k with
  | nil =>
    have h0 : unitCount ([] : List Event) = 0 := rfl
    rw [List.nil_append, List.nil_append, h0, Nat.sub_zero]
  | cons e es ih =>
    cases he : isUnitSaveEvent e with
    | false =>
      have hcount : unitCount (e :: es) = unitCount es := by
        unfold unitCount
        rw [List.countP_cons_of_neg]
        simp [he]
      obtain ⟨k2, rfl⟩ : ∃ k2, k = k2 + 1 := ⟨k - 1, by omega⟩
      rw [hcount] at h
      rw [List.cons_append, eventsUpToUnit_cons_other _ _ he, hcount,
        ih (k2 + 1) (by omega), List.cons_append]
    | true =>
      cases e with
      | saveUnit p =>
        have hcount : unitCount (Event.saveUnit p :: es) = unitCount es + 1 := by
          unfold unitCount
          rw [List.countP_cons_of_pos]
          rfl
        obtain ⟨k2, rfl⟩ : ∃ k2, k = k2 + 2 := ⟨k - 2, by omega⟩
        rw [hcount] at h
        have harith : k2 + 2 - unitCount (Event.saveUnit p :: es) = k2 + 1 - unitCount es := by
          rw [hcount]
          omega
        rw [List.cons_append, eventsUpToUnit_cons_unit_succ, harith,
          ih (k2 + 1) (by omega), List.cons_append]
      | extractFrames j d => cases he
      | extractAudio j pth => cases he
      | insertAttempt c => cases he
      | saveTransition p => cases he
      | deleteDirectory d => cases he
      | deleteFiles ps => cases he

theorem eventsUpToUnit_unitPairs {α : Type} (us : List α) (f : α → InsertCall)
    (g : α → Progress) (k : Nat) (h : k ≤ us.length) :
    eventsUpToUnit ((us.map (fun u =>
        [Event.insertAttempt (f u), Event.saveUnit (g u)])).flatten) k =
      (((us.take k).map (fun u =>
        [Event.insertAttempt (f u), Event.saveUnit (g u)])).flatten) := by
  induction us generalizing k with
  | nil =>
    have h0 : k = 0 := by
      have := h
      simp only [List.length_nil] at this
      omega
    subst h0
    rfl
  | cons u us ih =>
    cases k with
    | zero => rw [eventsUpToUnit_zero]; rfl
    | succ k2 =>
      have hflat : ((u :: us).map (fun u =>
          [Event.insertAttempt (f u), Event.saveUnit (g u)])).flatten =
          Event.insertAttempt (f u) :: Event.saveUnit (g u) ::
            ((us.map (fun u =>
              [Event.insertAttempt (f u), Event.saveUnit (g u)])).flatten) := by
        simp
      rw [hflat, eventsUpToUnit_cons_other _ _
        (show isUnitSaveEvent (Event.insertAttempt (f u)) = false from rfl)]
      cases k2 with
      | zero =>
        rw [eventsUpToUnit_cons_unit_one]
        rfl
      | succ k3 =>
        rw [eventsUpToUnit_cons_unit_succ,
          ih (k3 + 1) (by simp only [List.length_cons] at h; omega)]
        rfl

theorem unitCount_eventsUpToUnit (evs : List Event) (k : Nat) (h : k ≤ unitCount evs) :
    unitCount (eventsUpToUnit evs k) = k := by
  induction evs generalizing k with
  | nil =>
    have h0 : unitCount ([] : List Event) = 0 := rfl
    rw [h0] at h
    obtain rfl : k = 0 := by omega
    rfl
  | cons e es ih =>
    cases k with
    | zero => rw [eventsUpToUnit_zero]; rfl
    | succ k2 =>
      cases he : isUnitSaveEvent e with
      | false =>
        have hcount : unitCount (e :: es) = unitCount es := by
          unfold unitCount
          rw [List.countP_cons_of_neg]
          simp [he]
        rw [hcount] at h
        rw [eventsUpToUnit_cons_other _ _ he]
        have hc2 : unitCount (e :: eventsUpToUnit es (k2 + 1)) =
            unitCount (eventsUpToUnit es (k2 + 1)) := by
          unfold unitCount
          rw [List.countP_cons_of_neg]
          simp [he]
        rw [hc2, ih (k2 + 1) h]
      | true =>
        cases e with
        | saveUnit p =>
          have hcount : unitCount (Event.saveUnit p :: es) = unitCount es + 1 := by
            unfold unitCount
            rw [List.countP_cons_of_pos]
            rfl
          rw [hcount] at h
          cases k2 with
          | zero => rfl
          | succ k3 =>
            rw [eventsUpToUnit_cons_unit_succ]
            have hc2 : unitCount (Event.saveUnit p :: eventsUpToUnit es (k3 + 1)) =
                unitCount (eventsUpToUnit es (k3 + 1)) + 1 := by
              unfold unitCount
              rw [List.countP_cons_of_pos]
              rfl
            rw [hc2, ih (k3 + 1) (by omega)]
        | extractFrames j d => cases he
        | extractAudio j pth => cases he
        | insertAttempt c => cases he
        | saveTransition p => cases he
        | deleteDirectory d => cases he
        | deleteFiles ps => cases he

theorem exists_saveUnit_of_unitCount_pos {evs : List Event} (h : 0 < unitCount evs) :
    ∃ p : Progress, Event.saveUnit p ∈ evs := by
  unfold unitCount at h
  rw [List.countP_pos_iff] at h
  obtain ⟨e, he, hp⟩ := h
  cases e with
  | saveUnit p => exact ⟨p, he⟩
  | extractFrames j d => cases hp
  | extractAudio j pth => cases hp
  | insertAttempt c => cases hp
  | saveTransition p => cases hp
  | deleteDirectory d => cases hp
  | deleteFiles ps => cases hp

theorem getLast?_getD_append {α : Type} (x y : List α) (d : α) :
    (((x ++ y).getLast?).getD d) = ((y.getLast?).getD ((x.getLast?).getD d)) := by
  rw [List.getLast?_append]
  cases y.getLast? <;> rfl

theorem fiAfter_append (fi0 : Nat) (a b : List Event) :
    fiAfter fi0 (a ++ b) = fiAfter (fiAfter fi0 a) b := by
  unfold fiAfter
  rw [List.filterMap_append]
  exact getLast?_getD_append _ _ _

theorem stageAfter_append (st0 : String) (a b : List Event) :
    stageAfter st0 (a ++ b) = stageAfter (stageAfter st0 a) b := by
  unfold stageAfter
  rw [List.filterMap_append]
  exact getLast?_getD_append _ _ _

theorem stageAfter_of_mem_saveUnit {evs : List Event} (s1 s2 : String)
    (h : ∃ p : Progress, Event.saveUnit p ∈ evs) :
    stageAfter s1 evs = stageAfter s2 evs := by
  obtain ⟨p, hp⟩ := h
  unfold stageAfter
  have hmem : p.feature_stage ∈ evs.filterMap (fun e =>
      match e with
      | Event.saveUnit p => some p.feature_stage
      | _ => none) := by
    rw [List.mem_filterMap]
    exact ⟨Event.saveUnit p, hp, rfl⟩
  have hne : evs.filterMap (fun e =>
      match e with
      | Event.saveUnit p => some p.feature_stage
      | _ => none) ≠ [] := by
    intro hcontra
    rw [hcontra] at hmem
    cases hmem
  cases hlast : (evs.filterMap (fun e =>
      match e with
      | Event.saveUnit p => some p.feature_stage
      | _ => none)).getLast? with
  | none =>
    rw [List.getLast?_eq_none_iff] at hlast
    exact absurd hlast hne
  | some x => rfl

theorem siftStage_eq (i vid : Nat) (frames : List (Option ℚ)) (fi : Nat) :
    siftStage i vid frames fi =
      unitPairs (List.enumFrom fi (frames.drop fi)) (siftCall vid) (siftSave i) := rfl

theorem steStage_eq (i vid : Nat) (audio : List ℚ) :
    steStage i vid audio =
      unitPairs (calculate_ste_hash audio 2048).enum (steCall vid) (steSave i) := rfl

theorem dwtStage_eq (i vid : Nat) (dwtA dwtD : List ℚ) :
    dwtStage i vid dwtA dwtD =
      unitPairs (calculate_dwt_hash dwtA dwtD).enum (dwtCall vid) (dwtSave i) := rfl

theorem unitPairs_cons {α : Type} (u : α) (us : List α) (f : α → InsertCall)
    (g : α → Progress) :
    unitPairs (u :: us) f g =
      [Event.insertAttempt (f u), Event.saveUnit (g u)] ++ unitPairs us f g := by
  unfold unitPairs
  simp

theorem attemptsOf_append (a b : List Event) :
    attemptsOf (a ++ b) = attemptsOf a ++ attemptsOf b := by
  unfold attemptsOf
  exact List.filterMap_append _ _ _

theorem attemptsOf_unitPairs {α : Type} (us : List α) (f : α → InsertCall)
    (g : α → Progress) : attemptsOf (unitPairs us f g) = us.map f := by
  induction us with
  | nil => rfl
  | cons u us ih =>
    rw [unitPairs_cons, attemptsOf_append, ih]
    rfl

theorem unitCount_unitPairs2 {α : Type} (us : List α) (f : α → InsertCall)
    (g : α → Progress) : unitCount (unitPairs us f g) = us.length :=
  unitCount_unitPairs us f g

theorem eventsUpToUnit_unitPairs2 {α : Type} (us : List α) (f : α → InsertCall)
    (g : α → Progress) (k : Nat) (h : k ≤ us.length) :
    eventsUpToUnit (unitPairs us f g) k = unitPairs (us.take k) f g :=
  eventsUpToUnit_unitPairs us f g k h

theorem attemptsOf_nil : attemptsOf [] = [] := rfl

theorem attemptsOf_extractFrames (i : Nat) (d : String) :
    attemptsOf [Event.extractFrames i d] = [] := rfl

theorem attemptsOf_extractAudio (i : Nat) (pth : String) :
    attemptsOf [Event.extractAudio i pth] = [] := rfl

theorem attemptsOf_saveTransition (p : Progress) :
    attemptsOf [Event.saveTransition p] = [] := rfl

theorem unitCount_extractFrames (i : Nat) (d : String) :
    unitCount [Event.extractFrames i d] = 0 := rfl

theorem unitCount_extractAudio (i : Nat) (pth : String) :
    unitCount [Event.extractAudio i pth] = 0 := rfl

theorem unitCount_saveTransition (p : Progress) :
    unitCount [Event.saveTransition p] = 0 := rfl

theorem attemptsOf_siftStage (i vid : Nat) (frames : List (Option ℚ)) (fi : Nat) :
    attemptsOf (siftStage i vid frames fi) = siftAttempts vid frames fi := by
  rw [siftStage_eq, attemptsOf_unitPairs]
  rfl

theorem attemptsOf_steStage (i vid : Nat) (audio : List ℚ) :
    attemptsOf (steStage i vid audio) = steAttempts vid audio := by
  rw [steStage_eq, attemptsOf_unitPairs]
  rfl

theorem attemptsOf_dwtStage (i vid : Nat) (dwtA dwtD : List ℚ) :
    attemptsOf (dwtStage i vid dwtA dwtD) = dwtAttempts vid dwtA dwtD := by
  rw [dwtStage_eq, attemptsOf_unitPairs]
  rfl

theorem unitCount_siftStage (i vid : Nat) (frames : List (Option ℚ)) (fi : Nat) :
    unitCount (siftStage i vid frames fi) = (frames.drop fi).length := by
  rw [siftStage_eq, unitCount_unitPairs2]
  exact List.enumFrom_length

theorem unitCount_steStage (i vid : Nat) (audio : List ℚ) :
    unitCount (steStage i vid audio) = (calculate_ste_hash audio 2048).length := by
  rw [steStage_eq, unitCount_unitPairs2]
  exact List.enum_length

theorem unitCount_dwtStage (i vid : Nat) (dwtA dwtD : List ℚ) :
    unitCount (dwtStage i vid dwtA dwtD) = (calculate_dwt_hash dwtA dwtD).length := by
  rw [dwtStage_eq, unitCount_unitPairs2]
  exact List.enum_length

theorem pv_sift_events (i : Nat) (v : VideoInput) (fi : Nat) :
    (processVideoEvents i v fi "SIFT").1 =
      [Event.extractFrames i v.frame_dir] ++
        (siftStage i (i + 1) v.frames fi ++ [Event.saveTransition ⟨i, 0, "STE"⟩]) ++
        [Event.extractAudio i v.audio_path] ++
        (steStage i (i + 1) v.audio ++ [Event.saveTransition ⟨i, 0, "DWT"⟩]) ++
        (dwtStage i (i + 1) v.dwtA v.dwtD ++ [Event.saveTransition ⟨i + 1, 0, "SIFT"⟩]) := rfl

theorem pv_sift_fi (i : Nat) (v : VideoInput) (fi : Nat) :
    (processVideoEvents i v fi "SIFT").2.1 = siftStageFi v.frames fi := rfl

theorem pv_sift_st (i : Nat) (v : VideoInput) (fi : Nat) :
    (processVideoEvents i v fi "SIFT").2.2 = "SIFT" := rfl

theorem pv_ste_events (i : Nat) (v : VideoInput) (fi : Nat) :
    (processVideoEvents i v fi "STE").1 =
      [Event.extractFrames i v.frame_dir] ++
        [Event.extractAudio i v.audio_path] ++
        (steStage i (i + 1) v.audio ++ [Event.saveTransition ⟨i, 0, "DWT"⟩]) ++
        (dwtStage i (i + 1) v.dwtA v.dwtD ++ [Event.saveTransition ⟨i + 1, 0, "SIFT"⟩]) := rfl

theorem pv_ste_fi (i : Nat) (v : VideoInput) (fi : Nat) :
    (processVideoEvents i v fi "STE").2.1 = fi := rfl

theorem pv_ste_st (i : Nat) (v : VideoInput) (fi : Nat) :
    (processVideoEvents i v fi "STE").2.2 = "SIFT" := rfl

theorem pv_dwt_events (i : Nat) (v : VideoInput) (fi : Nat) :
    (processVideoEvents i v fi "DWT").1 =
      [Event.extractFrames i v.frame_dir] ++
        [Event.extractAudio i v.audio_path] ++
        (dwtStage i (i + 1) v.dwtA v.dwtD ++ [Event.saveTransition ⟨i + 1, 0, "SIFT"⟩]) := rfl

theorem pv_dwt_fi (i : Nat) (v : VideoInput) (fi : Nat) :
    (processVideoEvents i v fi "DWT").2.1 = fi := rfl

theorem pv_dwt_st (i : Nat) (v : VideoInput) (fi : Nat) :
    (processVideoEvents i v fi "DWT").2.2 = "SIFT" := rfl

theorem genEvents_cons (v : VideoInput) (rest : List VideoInput) (i fi : Nat)
    (st : String) :
    genEvents (v :: rest) i fi st =
      (processVideoEvents i v fi st).1 ++
        genEvents rest (i + 1) (processVideoEvents i v fi st).2.1
          (processVideoEvents i v fi st).2.2 := rfl

theorem genEvents_nil (i fi : Nat) (st : String) : genEvents [] i fi st = [] := rfl

theorem enumFrom_cons {α : Type} (n : Nat) (a : α) (l : List α) :
    List.enumFrom n (a :: l) = (n, a) :: List.enumFrom (n + 1) l := rfl

theorem take_enumFrom {α : Type} (n k : Nat) (l : List α) :
    (List.enumFrom n l).take k = List.enumFrom n (l.take k) := by
  induction l generalizing n k with
  | nil => simp
  | cons a l ih =>
    cases k with
    | zero => rfl
    | succ k2 =>
      rw [enumFrom_cons, List.take_succ_cons, List.take_succ_cons, enumFrom_cons, ih]

theorem drop_enumFrom {α : Type} (n k : Nat) (l : List α) :
    (List.enumFrom n l).drop k = List.enumFrom (n + k) (l.drop k) := by
  induction l generalizing n k with
  | nil => simp
  | cons a l ih =>
    cases k with
    | zero => rfl
    | succ k2 =>
      rw [enumFrom_cons, List.drop_succ_cons, List.drop_succ_cons, ih]
      congr 1
      omega

theorem getLast?_cons_of_ne_nil {α : Type} (a : α) {l : List α} (h : l ≠ []) :
    (a :: l).getLast? = l.getLast? := by
  cases l with
  | nil => exact absurd rfl h
  | cons b l2 => exact List.getLast?_cons_cons

theorem getLast?_map_enumFrom_succ {α : Type} (n : Nat) (l : List α) (hl : l ≠ []) :
    ((List.enumFrom n l).map (fun ju => ju.1 + 1)).getLast? = some (n + l.length) := by
  induction l generalizing n with
  | nil => exact absurd rfl hl
  | cons a l ih =>
    cases l with
    | nil => rfl
    | cons b l2 =>
      rw [show (List.enumFrom n (a :: b :: l2)).map (fun ju => ju.1 + 1) =
          (n + 1) :: (List.enumFrom (n + 1) (b :: l2)).map (fun ju => ju.1 + 1) from rfl]
      rw [getLast?_cons_of_ne_nil _ (by simp), ih (n + 1) (by simp)]
      simp only [Option.some.injEq, List.length_cons]
      omega

theorem getLast?_map_const {α β : Type} (l : List α) (b : β) (hl : l ≠ []) :
    (l.map (fun _ => b)).getLast? = some b := by
  induction l with
  | nil => exact absurd rfl hl
  | cons a l ih =>
    cases l with
    | nil => rfl
    | cons c l2 =>
      rw [show ((a :: c :: l2).map (fun _ => b)) = b :: ((c :: l2).map (fun _ => b)) from
          rfl]
      rw [getLast?_cons_of_ne_nil _ (by simp)]
      exact ih (by simp)

theorem siftAttempts_drop (vid : Nat) (frames : List (Option ℚ)) (fi d : Nat) :
    siftAttempts vid frames (fi + d) = (siftAttempts vid frames fi).drop d := by
  unfold siftAttempts
  rw [← List.map_drop, drop_enumFrom, List.drop_drop]

theorem foldl_enumFrom_fi {α : Type} (l : List α) (n a : Nat) :
    (List.enumFrom n l).foldl (fun _ ju => ju.1 + 1) a =
      if l.length = 0 then a else n + l.length := by
  induction l generalizing n a with
  | nil => rfl
  | cons x l ih =>
    rw [enumFrom_cons, List.foldl_cons, ih]
    by_cases h : l.length = 0
    · rw [if_pos h, if_neg (by simp)]
      show n + 1 = n + (x :: l).length
      rw [List.length_cons, h]
    · rw [if_neg h, if_neg (by simp)]
      rw [List.length_cons]
      omega

theorem siftStageFi_eq_max (frames : List (Option ℚ)) (fi : Nat) :
    siftStageFi frames fi = max fi frames.length := by
  unfold siftStageFi
  rw [foldl_enumFrom_fi, List.length_drop]
  by_cases h : frames.length - fi = 0
  · rw [if_pos h]
    omega
  · rw [if_neg h]
    omega

theorem fiAfter_nil (fi0 : Nat) : fiAfter fi0 [] = fi0 := rfl

theorem fiAfter_extractFrames (fi0 i : Nat) (d : String) :
    fiAfter fi0 [Event.extractFrames i d] = fi0 := rfl

theorem fiAfter_extractAudio (fi0 i : Nat) (pth : String) :
    fiAfter fi0 [Event.extractAudio i pth] = fi0 := rfl

theorem fiAfter_saveTransition (fi0 : Nat) (p : Progress) :
    fiAfter fi0 [Event.saveTransition p] = fi0 := rfl

theorem stageAfter_nil (st0 : String) : stageAfter st0 [] = st0 := rfl

theorem stageAfter_extractFrames (st0 : String) (i : Nat) (d : String) :
    stageAfter st0 [Event.extractFrames i d] = st0 := rfl

theorem stageAfter_extractAudio (st0 : String) (i : Nat) (pth : String) :
    stageAfter st0 [Event.extractAudio i pth] = st0 := rfl

theorem stageAfter_saveTransition (st0 : String) (p : Progress) :
    stageAfter st0 [Event.saveTransition p] = st0 := rfl

theorem fiAfter_pair_sift (fi0 : Nat) (c : InsertCall) (p : Progress)
    (h : p.feature_stage = "SIFT") :
    fiAfter fi0 [Event.insertAttempt c, Event.saveUnit p] = p.frame_index := by
  simp [fiAfter, h]

theorem fiAfter_pair_other (fi0 : Nat) (c : InsertCall) (p : Progress)
    (h : p.feature_stage ≠ "SIFT") :
    fiAfter fi0 [Event.insertAttempt c, Event.saveUnit p] = fi0 := by
  simp [fiAfter, h]

theorem stageAfter_pair (st0 : String) (c : InsertCall) (p : Progress) :
    stageAfter st0 [Event.insertAttempt c, Event.saveUnit p] = p.feature_stage := rfl

theorem fiAfter_sift_unitPairs (fi0 i vid : Nat) (us : List (Nat × Option ℚ)) :
    fiAfter fi0 (unitPairs us (siftCall vid) (siftSave i)) =
      ((us.map (fun ju => ju.1 + 1)).getLast?).getD fi0 := by
  induction us generalizing fi0 with
  | nil => rfl
  | cons u us ih =>
    rw [unitPairs_cons, fiAfter_append, fiAfter_pair_sift _ _ _ rfl, ih]
    cases us with
    | nil => rfl
    | cons w ws =>
      rw [show ((u :: w :: ws).map (fun ju => ju.1 + 1)) =
          (u.1 + 1) :: ((w :: ws).map (fun ju => ju.1 + 1)) from rfl]
      rw [getLast?_cons_of_ne_nil _ (by simp)]
      cases hl : (((w :: ws).map (fun ju => ju.1 + 1))).getLast? with
      | none =>
        rw [List.getLast?_eq_none_iff] at hl
        simp at hl
      | some x => rfl

theorem fiAfter_ste_unitPairs (fi0 i vid : Nat) (us : List (Nat × String)) :
    fiAfter fi0 (unitPairs us (steCall vid) (steSave i)) = fi0 := by
  induction us with
  | nil => rfl
  | cons u us ih =>
    rw [unitPairs_cons, fiAfter_append,
      fiAfter_pair_other _ _ _ (fun hcon => absurd (show ("STE" : String) = "SIFT" from hcon) (by decide))]
    exact ih

theorem fiAfter_dwt_unitPairs (fi0 i vid : Nat) (us : List (Nat × String)) :
    fiAfter fi0 (unitPairs us (dwtCall vid) (dwtSave i)) = fi0 := by
  induction us with
  | nil => rfl
  | cons u us ih =>
    rw [unitPairs_cons, fiAfter_append,
      fiAfter_pair_other _ _ _ (fun hcon => absurd (show ("DWT" : String) = "SIFT" from hcon) (by decide))]
    exact ih

theorem stageAfter_unitPairs_cons {α : Type} (st0 stg : String) (u : α) (us : List α)
    (f : α → InsertCall) (g : α → Progress)
    (hg : ∀ x, (g x).feature_stage = stg) :
    stageAfter st0 (unitPairs (u :: us) f g) = stg := by
  induction us generalizing st0 u with
  | nil =>
    rw [unitPairs_cons, stageAfter_append, stageAfter_pair]
    exact hg u
  | cons w ws ih =>
    rw [unitPairs_cons, stageAfter_append, stageAfter_pair]
    exact ih _ w

theorem fiAfter_siftStage (i vid fi : Nat) (frames : List (Option ℚ)) :
    fiAfter fi (siftStage i vid frames fi) = max fi frames.length := by
  rw [siftStage_eq, fiAfter_sift_unitPairs]
  by_cases h : frames.drop fi = []
  · rw [h]
    have h3 := congrArg List.length h
    rw [List.length_drop] at h3
    simp only [List.length_nil] at h3
    simp only [List.enumFrom_nil, List.map_nil, List.getLast?_nil, Option.getD_none]
    omega
  · rw [getLast?_map_enumFrom_succ fi _ h, Option.getD_some, List.length_drop]
    have h1 : fi < frames.length := by
      by_contra hc
      exact h (List.drop_eq_nil_of_le (by omega))
    omega

theorem fiAfter_pv_sift (i : Nat) (v : VideoInput) (fi : Nat) :
    fiAfter fi (processVideoEvents i v fi "SIFT").1 = max fi v.frames.length := by
  rw [pv_sift_events]
  simp only [List.append_assoc]
  rw [fiAfter_append, fiAfter_extractFrames, fiAfter_append, fiAfter_siftStage,
    fiAfter_append, fiAfter_saveTransition, fiAfter_append, fiAfter_extractAudio,
    fiAfter_append, steStage_eq, fiAfter_ste_unitPairs, fiAfter_append,
    fiAfter_saveTransition, fiAfter_append, dwtStage_eq, fiAfter_dwt_unitPairs,
    fiAfter_saveTransition]

theorem attemptsOf_pv_sift (i : Nat) (v : VideoInput) (fi : Nat) :
    attemptsOf (processVideoEvents i v fi "SIFT").1 =
      siftAttempts (i + 1) v.frames fi ++
        (steAttempts (i + 1) v.audio ++ dwtAttempts (i + 1) v.dwtA v.dwtD) := by
  rw [pv_sift_events]
  simp only [List.append_assoc, attemptsOf_append, attemptsOf_extractFrames,
    attemptsOf_extractAudio, attemptsOf_saveTransition, attemptsOf_siftStage,
    attemptsOf_steStage, attemptsOf_dwtStage, List.nil_append, List.append_nil]

theorem attemptsOf_pv_ste (i : Nat) (v : VideoInput) (fi : Nat) :
    attemptsOf (processVideoEvents i v fi "STE").1 =
      steAttempts (i + 1) v.audio ++ dwtAttempts (i + 1) v.dwtA v.dwtD := by
  rw [pv_ste_events]
  simp only [List.append_assoc, attemptsOf_append, attemptsOf_extractFrames,
    attemptsOf_extractAudio, attemptsOf_saveTransition, attemptsOf_steStage,
    attemptsOf_dwtStage, List.nil_append, List.append_nil]

theorem attemptsOf_pv_dwt (i : Nat) (v : VideoInput) (fi : Nat) :
    attemptsOf (processVideoEvents i v fi "DWT").1 =
      dwtAttempts (i + 1) v.dwtA v.dwtD := by
  rw [pv_dwt_events]
  simp only [List.append_assoc, attemptsOf_append, attemptsOf_extractFrames,
    attemptsOf_extractAudio, attemptsOf_saveTransition, attemptsOf_dwtStage,
    List.nil_append, List.append_nil]

theorem unitCount_pv_sift (i : Nat) (v : VideoInput) (fi : Nat) :
    unitCount (processVideoEvents i v fi "SIFT").1 =
      (v.frames.drop fi).length + (calculate_ste_hash v.audio 2048).length +
        (calculate_dwt_hash v.dwtA v.dwtD).length := by
  rw [pv_sift_events]
  simp only [List.append_assoc, unitCount_append, unitCount_extractFrames,
    unitCount_extractAudio, unitCount_saveTransition, unitCount_siftStage,
    unitCount_steStage, unitCount_dwtStage]
  omega

theorem genEvents_sift_attempts_mono (videos : List VideoInput) (i : Nat) :
    ∀ fi fi', fi ≤ fi' →
      List.Sublist (attemptsOf (genEvents videos i fi' "SIFT"))
        (attemptsOf (genEvents videos i fi "SIFT")) := by
  induction videos generalizing i with
  | nil =>
    intro fi fi' h
    exact List.Sublist.refl _
  | cons v rest ih =>
    intro fi fi' h
    rw [genEvents_cons, genEvents_cons, pv_sift_fi, pv_sift_fi, pv_sift_st, pv_sift_st,
      attemptsOf_append, attemptsOf_append, attemptsOf_pv_sift, attemptsOf_pv_sift]
    apply List.Sublist.append
    · apply List.Sublist.append
      · rw [show fi' = fi + (fi' - fi) from by omega, siftAttempts_drop]
        exact List.drop_sublist _ _
      · exact List.Sublist.refl _
    · rw [siftStageFi_eq_max, siftStageFi_eq_max]
      exact ih (i + 1) _ _ (by omega)

theorem stageAfter_unitPairs_ne {α : Type} (st0 stg : String) {us : List α}
    (f : α → InsertCall) (g : α → Progress)
    (hg : ∀ x, (g x).feature_stage = stg) (h : us ≠ []) :
    stageAfter st0 (unitPairs us f g) = stg := by
  cases us with
  | nil => exact absurd rfl h
  | cons u us2 => exact stageAfter_unitPairs_cons st0 stg u us2 f g hg

theorem eventsUpToUnit_singleton_other {e : Event} (b : List Event) (k : Nat)
    (h1 : 1 ≤ k) (he : isUnitSaveEvent e = false) :
    eventsUpToUnit ([e] ++ b) k = [e] ++ eventsUpToUnit b k := by
  cases k with
  | zero => omega
  | succ k2 =>
    rw [List.singleton_append, eventsUpToUnit_cons_other _ _ he]
    rfl

theorem cut_sift (i : Nat) (v : VideoInput) (fi : Nat) (R : List Event) (k : Nat)
    (h1 : 1 ≤ k) (h2 : k ≤ (v.frames.drop fi).length) :
    eventsUpToUnit ((processVideoEvents i v fi "SIFT").1 ++ R) k =
      [Event.extractFrames i v.frame_dir] ++
        unitPairs (List.enumFrom fi ((v.frames.drop fi).take k))
          (siftCall (i + 1)) (siftSave i) := by
  rw [eventsUpToUnit_append_left _ _ _ h1 (by rw [unitCount_pv_sift]; omega)]
  rw [pv_sift_events]
  simp only [List.append_assoc]
  rw [eventsUpToUnit_singleton_other _ _ h1
    (show isUnitSaveEvent (Event.extractFrames i v.frame_dir) = false from rfl)]
  rw [eventsUpToUnit_append_left _ _ _ h1 (by rw [unitCount_siftStage]; omega)]
  rw [siftStage_eq,
    eventsUpToUnit_unitPairs2 _ _ _ _ (by rw [List.enumFrom_length]; omega)]
  rw [take_enumFrom]

theorem cut_ste (i : Nat) (v : VideoInput) (fi : Nat) (R : List Event) (k : Nat)
    (h1 : (v.frames.drop fi).length < k)
    (h2 : k - (v.frames.drop fi).length ≤ (calculate_ste_hash v.audio 2048).length) :
    eventsUpToUnit ((processVideoEvents i v fi "SIFT").1 ++ R) k =
      [Event.extractFrames i v.frame_dir] ++
        (siftStage i (i + 1) v.frames fi ++
          ([Event.saveTransition ⟨i, 0, "STE"⟩] ++
            ([Event.extractAudio i v.audio_path] ++
              unitPairs ((calculate_ste_hash v.audio 2048).enum.take
                  (k - (v.frames.drop fi).length))
                (steCall (i + 1)) (steSave i)))) := by
  rw [eventsUpToUnit_append_left _ _ _ (by omega) (by rw [unitCount_pv_sift]; omega)]
  rw [pv_sift_events]
  simp only [List.append_assoc]
  rw [eventsUpToUnit_singleton_other _ _ (by omega)
    (show isUnitSaveEvent (Event.extractFrames i v.frame_dir) = false from rfl)]
  rw [eventsUpToUnit_append_right _ _ _ (by rw [unitCount_siftStage]; omega)]
  rw [unitCount_siftStage]
  rw [eventsUpToUnit_singleton_other _ _ (by omega)
    (show isUnitSaveEvent (Event.saveTransition ⟨i, 0, "STE"⟩) = false from rfl)]
  rw [eventsUpToUnit_singleton_other _ _ (by omega)
    (show isUnitSaveEvent (Event.extractAudio i v.audio_path) = false from rfl)]
  rw [eventsUpToUnit_append_left _ _ _ (by omega) (by rw [unitCount_steStage]; omega)]
  rw [steStage_eq,
    eventsUpToUnit_unitPairs2 _ _ _ _ (by rw [List.enum_length]; omega)]

theorem cut_dwt (i : Nat) (v : VideoInput) (fi : Nat) (R : List Event) (k : Nat)
    (h1 : (v.frames.drop fi).length + (calculate_ste_hash v.audio 2048).length < k)
    (h2 : k - (v.frames.drop fi).length - (calculate_ste_hash v.audio 2048).length ≤
      (calculate_dwt_hash v.dwtA v.dwtD).length) :
    eventsUpToUnit ((processVideoEvents i v fi "SIFT").1 ++ R) k =
      [Event.extractFrames i v.frame_dir] ++
        (siftStage i (i + 1) v.frames fi ++
          ([Event.saveTransition ⟨i, 0, "STE"⟩] ++
            ([Event.extractAudio i v.audio_path] ++
              (steStage i (i + 1) v.audio ++
                ([Event.saveTransition ⟨i, 0, "DWT"⟩] ++
                  unitPairs ((calculate_dwt_hash v.dwtA v.dwtD).enum.take
                      (k - (v.frames.drop fi).length -
                        (calculate_ste_hash v.audio 2048).length))
                    (dwtCall (i + 1)) (dwtSave i)))))) := by
  rw [eventsUpToUnit_append_left _ _ _ (by omega) (by rw [unitCount_pv_sift]; omega)]
  rw [pv_sift_events]
  simp only [List.append_assoc]
  rw [eventsUpToUnit_singleton_other _ _ (by omega)
    (show isUnitSaveEvent (Event.extractFrames i v.frame_dir) = false from rfl)]
  rw [eventsUpToUnit_append_right _ _ _ (by rw [unitCount_siftStage]; omega)]
  rw [unitCount_siftStage]
  rw [eventsUpToUnit_singleton_other _ _ (by omega)
    (show isUnitSaveEvent (Event.saveTransition ⟨i, 0, "STE"⟩) = false from rfl)]
  rw [eventsUpToUnit_singleton_other _ _ (by omega)
    (show isUnitSaveEvent (Event.extractAudio i v.audio_path) = false from rfl)]
  rw [eventsUpToUnit_append_right _ _ _ (by rw [unitCount_steStage]; omega)]
  rw [unitCount_steStage]
  rw [eventsUpToUnit_singleton_other _ _ (by omega)
    (show isUnitSaveEvent (Event.saveTransition ⟨i, 0, "DWT"⟩) = false from rfl)]
  rw [dwtStage_eq,
    eventsUpToUnit_append_left _ _ _ (by omega)
      (by rw [unitCount_unitPairs2, List.enum_length]; omega),
    eventsUpToUnit_unitPairs2 _ _ _ _ (by rw [List.enum_length]; omega)]

theorem stageAfter_siftStage_sift (i vid fi : Nat) (frames : List (Option ℚ)) :
    stageAfter "SIFT" (siftStage i vid frames fi) = "SIFT" := by
  rw [siftStage_eq]
  cases List.enumFrom fi (frames.drop fi) with
  | nil => rfl
  | cons u us => exact stageAfter_unitPairs_cons _ _ _ _ _ _ (fun x => rfl)

theorem attemptsOf_genEvents_cons_sift (i fi : Nat) (v : VideoInput)
    (rest : List VideoInput) :
    attemptsOf (genEvents (v :: rest) i fi "SIFT") =
      siftAttempts (i + 1) v.frames fi ++
        ((steAttempts (i + 1) v.audio ++ dwtAttempts (i + 1) v.dwtA v.dwtD) ++
          attemptsOf (genEvents rest (i + 1) (max fi v.frames.length) "SIFT")) := by
  rw [genEvents_cons, pv_sift_fi, pv_sift_st, siftStageFi_eq_max, attemptsOf_append,
    attemptsOf_pv_sift, List.append_assoc]

theorem genEvents_ste_eq_sift (rest : List VideoInput) (j f0 : Nat)
    (h : ∀ w, rest.head? = some w → w.frames.length ≤ f0) :
    attemptsOf (genEvents rest j f0 "STE") = attemptsOf (genEvents rest j f0 "SIFT") := by
  cases rest with
  | nil => rfl
  | cons w rest2 =>
    have hw := h w rfl
    rw [genEvents_cons, genEvents_cons, pv_ste_fi, pv_ste_st, pv_sift_fi, pv_sift_st,
      attemptsOf_append, attemptsOf_append, attemptsOf_pv_ste, attemptsOf_pv_sift]
    have hsA : siftAttempts (j + 1) w.frames f0 = [] := by
      unfold siftAttempts
      rw [List.drop_eq_nil_of_le hw]
      rfl
    rw [hsA, List.nil_append, siftStageFi_eq_max,
      show max f0 w.frames.length = f0 from by omega]

theorem genEvents_dwt_sublist_sift (rest : List VideoInput) (j f0 : Nat)
    (h : ∀ w, rest.head? = some w → w.frames.length ≤ f0) :
    List.Sublist (attemptsOf (genEvents rest j f0 "DWT"))
      (attemptsOf (genEvents rest j f0 "SIFT")) := by
  cases rest with
  | nil => exact List.Sublist.refl _
  | cons w rest2 =>
    have hw := h w rfl
    rw [genEvents_cons, genEvents_cons, pv_dwt_fi, pv_dwt_st, pv_sift_fi, pv_sift_st,
      attemptsOf_append, attemptsOf_append, attemptsOf_pv_dwt, attemptsOf_pv_sift]
    have hsA : siftAttempts (j + 1) w.frames f0 = [] := by
      unfold siftAttempts
      rw [List.drop_eq_nil_of_le hw]
      rfl
    rw [hsA, List.nil_append, siftStageFi_eq_max,
      show max f0 w.frames.length = f0 from by omega]
    exact List.Sublist.append (List.sublist_append_right _ _) (List.Sublist.refl _)

theorem core_resume (videos : List VideoInput) : ∀ (i fi k : Nat),
    1 ≤ k → k ≤ unitCount (genEvents videos i fi "SIFT") →
    ∀ f0 st0,
      f0 = fiAfter fi (eventsUpToUnit (genEvents videos i fi "SIFT") k) →
      st0 = stageAfter "SIFT" (eventsUpToUnit (genEvents videos i fi "SIFT") k) →
      (fi ≤ f0 ∧
        (st0 = "SIFT" ∨ ((st0 = "STE" ∨ st0 = "DWT") ∧
          ∀ w, videos.head? = some w → w.frames.length ≤ f0))) ∧
      ∃ rem,
        attemptsOf (genEvents videos i fi "SIFT") =
          attemptsOf (eventsUpToUnit (genEvents videos i fi "SIFT") k) ++ rem ∧
        List.Sublist rem (attemptsOf (genEvents videos i f0 st0)) ∧
        List.Sublist (attemptsOf (genEvents videos i f0 st0))
          (attemptsOf (genEvents videos i fi "SIFT")) := by
  induction videos with
  | nil =>
    intro i fi k hk1 hk2 f0 st0 hf hs
    rw [genEvents_nil] at hk2
    have h0 : unitCount ([] : List Event) = 0 := rfl
    omega
  | cons v rest ih =>
    intro i fi k hk1 hk2 f0 st0 hf hs
    have hlen : (v.frames.drop fi).length = v.frames.length - fi := by
      rw [List.length_drop]
    have hA := attemptsOf_genEvents_cons_sift i fi v rest
    have huc : unitCount (genEvents (v :: rest) i fi "SIFT") =
        ((v.frames.drop fi).length + (calculate_ste_hash v.audio 2048).length +
          (calculate_dwt_hash v.dwtA v.dwtD).length) +
          unitCount (genEvents rest (i + 1) (max fi v.frames.length) "SIFT") := by
      rw [genEvents_cons, pv_sift_fi, pv_sift_st, siftStageFi_eq_max, unitCount_append,
        unitCount_pv_sift]
    rw [huc] at hk2
    by_cases hc1 : k ≤ (v.frames.drop fi).length
    · -- interrupted inside the SIFT loop of the head video
      have hpre : eventsUpToUnit (genEvents (v :: rest) i fi "SIFT") k =
          [Event.extractFrames i v.frame_dir] ++
            unitPairs (List.enumFrom fi ((v.frames.drop fi).take k))
              (siftCall (i + 1)) (siftSave i) := by
        rw [genEvents_cons]
        exact cut_sift i v fi _ k hk1 hc1
      have htk : ((v.frames.drop fi).take k) ≠ [] := by
        intro hcon
        have hl2 := congrArg List.length hcon
        rw [List.length_take] at hl2
        simp only [List.length_nil] at hl2
        omega
      have hf0 : f0 = fi + k := by
        rw [hf, hpre, fiAfter_append, fiAfter_extractFrames, fiAfter_sift_unitPairs,
          getLast?_map_enumFrom_succ fi _ htk, Option.getD_some, List.length_take]
        omega
      have hs0 : st0 = "SIFT" := by
        rw [hs, hpre, stageAfter_append, stageAfter_extractFrames]
        refine stageAfter_unitPairs_ne _ _ _ _ (fun x => rfl) ?_
        intro hcon
        have hl2 := congrArg List.length hcon
        rw [List.enumFrom_length] at hl2
        simp only [List.length_nil] at hl2
        exact htk (List.length_eq_zero.mp hl2)
      have hattpre : attemptsOf (eventsUpToUnit (genEvents (v :: rest) i fi "SIFT") k) =
          (siftAttempts (i + 1) v.frames fi).take k := by
        rw [hpre, attemptsOf_append, attemptsOf_extractFrames, attemptsOf_unitPairs,
          List.nil_append]
        unfold siftAttempts
        rw [← take_enumFrom, ← List.map_take]
      have hA2 : attemptsOf (genEvents (v :: rest) i (fi + k) "SIFT") =
          (siftAttempts (i + 1) v.frames fi).drop k ++
            ((steAttempts (i + 1) v.audio ++ dwtAttempts (i + 1) v.dwtA v.dwtD) ++
              attemptsOf (genEvents rest (i + 1) (max fi v.frames.length) "SIFT")) := by
        rw [attemptsOf_genEvents_cons_sift, ← siftAttempts_drop,
          show max (fi + k) v.frames.length = max fi v.frames.length from by omega]
      refine ⟨⟨by omega, Or.inl hs0⟩,
        (siftAttempts (i + 1) v.frames fi).drop k ++
          ((steAttempts (i + 1) v.audio ++ dwtAttempts (i + 1) v.dwtA v.dwtD) ++
            attemptsOf (genEvents rest (i + 1) (max fi v.frames.length) "SIFT")),
        ?_, ?_, ?_⟩
      · rw [hA, hattpre]
        conv_rhs => rw [← List.append_assoc]
        rw [List.take_append_drop]
      · rw [hf0, hs0, hA2]
      · rw [hf0, hs0, hA2, hA]
        exact List.Sublist.append (List.drop_sublist _ _) (List.Sublist.refl _)
    · by_cases hc2 : k ≤ (v.frames.drop fi).length + (calculate_ste_hash v.audio 2048).length
      · -- interrupted inside the STE loop of the head video
        have hpre : eventsUpToUnit (genEvents (v :: rest) i fi "SIFT") k =
            [Event.extractFrames i v.frame_dir] ++
              (siftStage i (i + 1) v.frames fi ++
                ([Event.saveTransition ⟨i, 0, "STE"⟩] ++
                  ([Event.extractAudio i v.audio_path] ++
                    unitPairs ((calculate_ste_hash v.audio 2048).enum.take
                        (k - (v.frames.drop fi).length))
                      (steCall (i + 1)) (steSave i)))) := by
          rw [genEvents_cons]
          exact cut_ste i v fi _ k (by omega) (by omega)
        have htk : ((calculate_ste_hash v.audio 2048).enum.take
            (k - (v.frames.drop fi).length)) ≠ [] := by
          intro hcon
          have hl2 := congrArg List.length hcon
          rw [List.length_take, List.enum_length] at hl2
          simp only [List.length_nil] at hl2
          omega
        have hf0 : f0 = max fi v.frames.length := by
          rw [hf, hpre, fiAfter_append, fiAfter_extractFrames, fiAfter_append,
            fiAfter_siftStage, fiAfter_append, fiAfter_saveTransition, fiAfter_append,
            fiAfter_extractAudio, fiAfter_ste_unitPairs]
        have hs0 : st0 = "STE" := by
          rw [hs, hpre, stageAfter_append, stageAfter_append, stageAfter_append,
            stageAfter_append]
          exact stageAfter_unitPairs_ne _ _ _ _ (fun x => rfl) htk
        have hattpre : attemptsOf (eventsUpToUnit (genEvents (v :: rest) i fi "SIFT") k) =
            siftAttempts (i + 1) v.frames fi ++
              (steAttempts (i + 1) v.audio).take (k - (v.frames.drop fi).length) := by
          rw [hpre, attemptsOf_append, attemptsOf_extractFrames, List.nil_append,
            attemptsOf_append, attemptsOf_siftStage, attemptsOf_append,
            attemptsOf_saveTransition, List.nil_append, attemptsOf_append,
            attemptsOf_extractAudio, List.nil_append, attemptsOf_unitPairs]
          unfold steAttempts
          rw [← List.map_take]
        have hA2 : attemptsOf (genEvents (v :: rest) i (max fi v.frames.length) "STE") =
            (steAttempts (i + 1) v.audio ++ dwtAttempts (i + 1) v.dwtA v.dwtD) ++
              attemptsOf (genEvents rest (i + 1) (max fi v.frames.length) "SIFT") := by
          rw [genEvents_cons, pv_ste_fi, pv_ste_st, attemptsOf_append, attemptsOf_pv_ste]
        refine ⟨⟨by omega, Or.inr ⟨Or.inl hs0, ?_⟩⟩,
          (steAttempts (i + 1) v.audio).drop (k - (v.frames.drop fi).length) ++
            (dwtAttempts (i + 1) v.dwtA v.dwtD ++
              attemptsOf (genEvents rest (i + 1) (max fi v.frames.length) "SIFT")),
          ?_, ?_, ?_⟩
        · intro w hw
          simp only [List.head?_cons] at hw
          injection hw with hw2
          subst hw2
          omega
        · rw [hA, hattpre]
          simp only [List.append_assoc]
          congr 1
          conv_rhs => rw [← List.append_assoc]
          rw [List.take_append_drop]
        · rw [hf0, hs0, hA2]
          simp only [List.append_assoc]
          exact List.Sublist.append (List.drop_sublist _ _) (List.Sublist.refl _)
        · rw [hf0, hs0, hA2, hA]
          simp only [List.append_assoc]
          exact List.sublist_append_right _ _
      · by_cases hc3 : k ≤ (v.frames.drop fi).length +
          (calculate_ste_hash v.audio 2048).length +
          (calculate_dwt_hash v.dwtA v.dwtD).length
        · -- interrupted inside the DWT loop of the head video
          have hpre : eventsUpToUnit (genEvents (v :: rest) i fi "SIFT") k =
              [Event.extractFrames i v.frame_dir] ++
                (siftStage i (i + 1) v.frames fi ++
                  ([Event.saveTransition ⟨i, 0, "STE"⟩] ++
                    ([Event.extractAudio i v.audio_path] ++
                      (steStage i (i + 1) v.audio ++
                        ([Event.saveTransition ⟨i, 0, "DWT"⟩] ++
                          unitPairs ((calculate_dwt_hash v.dwtA v.dwtD).enum.take
                              (k - (v.frames.drop fi).length -
                                (calculate_ste_hash v.audio 2048).length))
                            (dwtCall (i + 1)) (dwtSave i)))))) := by
            rw [genEvents_cons]
            exact cut_dwt i v fi _ k (by omega) (by omega)
          have htk : ((calculate_dwt_hash v.dwtA v.dwtD).enum.take
              (k - (v.frames.drop fi).length -
                (calculate_ste_hash v.audio 2048).length)) ≠ [] := by
            intro hcon
            have hl2 := congrArg List.length hcon
            rw [List.length_take, List.enum_length] at hl2
            simp only [List.length_nil] at hl2
            omega
          have hf0 : f0 = max fi v.frames.length := by
            rw [hf, hpre, fiAfter_append, fiAfter_extractFrames, fiAfter_append,
              fiAfter_siftStage, fiAfter_append, fiAfter_saveTransition, fiAfter_append,
              fiAfter_extractAudio, fiAfter_append, steStage_eq, fiAfter_ste_unitPairs,
              fiAfter_append, fiAfter_saveTransition, fiAfter_dwt_unitPairs]
          have hs0 : st0 = "DWT" := by
            rw [hs, hpre, stageAfter_append, stageAfter_append, stageAfter_append,
              stageAfter_append, stageAfter_append, stageAfter_append]
            exact stageAfter_unitPairs_ne _ _ _ _ (fun x => rfl) htk
          have hattpre : attemptsOf (eventsUpToUnit (genEvents (v :: rest) i fi "SIFT") k) =
              siftAttempts (i + 1) v.frames fi ++
                (steAttempts (i + 1) v.audio ++
                  (dwtAttempts (i + 1) v.dwtA v.dwtD).take
                    (k - (v.frames.drop fi).length -
                      (calculate_ste_hash v.audio 2048).length)) := by
            rw [hpre, attemptsOf_append, attemptsOf_extractFrames, List.nil_append,
              attemptsOf_append, attemptsOf_siftStage, attemptsOf_append,
              attemptsOf_saveTransition, List.nil_append, attemptsOf_append,
              attemptsOf_extractAudio, List.nil_append, attemptsOf_append,
              attemptsOf_steStage, attemptsOf_append, attemptsOf_saveTransition,
              List.nil_append, attemptsOf_unitPairs]
            unfold dwtAttempts
            rw [← List.map_take]
          have hA2 : attemptsOf (genEvents (v :: rest) i (max fi v.frames.length) "DWT") =
              dwtAttempts (i + 1) v.dwtA v.dwtD ++
                attemptsOf (genEvents rest (i + 1) (max fi v.frames.length) "SIFT") := by
            rw [genEvents_cons, pv_dwt_fi, pv_dwt_st, attemptsOf_append, attemptsOf_pv_dwt]
          refine ⟨⟨by omega, Or.inr ⟨Or.inr hs0, ?_⟩⟩,
            (dwtAttempts (i + 1) v.dwtA v.dwtD).drop
                (k - (v.frames.drop fi).length -
                  (calculate_ste_hash v.audio 2048).length) ++
              attemptsOf (genEvents rest (i + 1) (max fi v.frames.length) "SIFT"),
            ?_, ?_, ?_⟩
          · intro w hw
            simp only [List.head?_cons] at hw
            injection hw with hw2
            subst hw2
            omega
          · rw [hA, hattpre]
            simp only [List.append_assoc]
            congr 1
            congr 1
            conv_rhs => rw [← List.append_assoc]
            rw [List.take_append_drop]
          · rw [hf0, hs0, hA2]
            exact List.Sublist.append (List.drop_sublist _ _) (List.Sublist.refl _)
          · rw [hf0, hs0, hA2, hA]
            simp only [List.append_assoc]
            exact (List.sublist_append_right _ _).trans (List.sublist_append_right _ _)
        · -- interrupted in a later video: the head video is fully processed
          have hGsplit : eventsUpToUnit (genEvents (v :: rest) i fi "SIFT") k =
              (processVideoEvents i v fi "SIFT").1 ++
                eventsUpToUnit
                  (genEvents rest (i + 1) (max fi v.frames.length) "SIFT")
                  (k - ((v.frames.drop fi).length +
                    (calculate_ste_hash v.audio 2048).length +
                    (calculate_dwt_hash v.dwtA v.dwtD).length)) := by
            rw [genEvents_cons, pv_sift_fi, pv_sift_st, siftStageFi_eq_max,
              eventsUpToUnit_append_right _ _ _ (by rw [unitCount_pv_sift]; omega),
              unitCount_pv_sift]
          have hk'1 : 1 ≤ k - ((v.frames.drop fi).length +
              (calculate_ste_hash v.audio 2048).length +
              (calculate_dwt_hash v.dwtA v.dwtD).length) := by omega
          have hk'2 : k - ((v.frames.drop fi).length +
              (calculate_ste_hash v.audio 2048).length +
              (calculate_dwt_hash v.dwtA v.dwtD).length) ≤
                unitCount (genEvents rest (i + 1) (max fi v.frames.length) "SIFT") := by
            omega
          have hf0 : f0 = fiAfter (max fi v.frames.length)
              (eventsUpToUnit (genEvents rest (i + 1) (max fi v.frames.length) "SIFT")
                (k - ((v.frames.drop fi).length +
                  (calculate_ste_hash v.audio 2048).length +
                  (calculate_dwt_hash v.dwtA v.dwtD).length))) := by
            rw [hf, hGsplit, fiAfter_append, fiAfter_pv_sift]
          have hucpre : unitCount
              (eventsUpToUnit (genEvents rest (i + 1) (max fi v.frames.length) "SIFT")
                (k - ((v.frames.drop fi).length +
                  (calculate_ste_hash v.audio 2048).length +
                  (calculate_dwt_hash v.dwtA v.dwtD).length))) =
              k - ((v.frames.drop fi).length +
                (calculate_ste_hash v.audio 2048).length +
                (calculate_dwt_hash v.dwtA v.dwtD).length) :=
            unitCount_eventsUpToUnit _ _ hk'2
          have hex : ∃ p : Progress, Event.saveUnit p ∈
              eventsUpToUnit (genEvents rest (i + 1) (max fi v.frames.length) "SIFT")
                (k - ((v.frames.drop fi).length +
                  (calculate_ste_hash v.audio 2048).length +
                  (calculate_dwt_hash v.dwtA v.dwtD).length)) :=
            exists_saveUnit_of_unitCount_pos (by rw [hucpre]; omega)
          have hs0 : st0 = stageAfter "SIFT"
              (eventsUpToUnit (genEvents rest (i + 1) (max fi v.frames.length) "SIFT")
                (k - ((v.frames.drop fi).length +
                  (calculate_ste_hash v.audio 2048).length +
                  (calculate_dwt_hash v.dwtA v.dwtD).length))) := by
            rw [hs, hGsplit, stageAfter_append]
            exact stageAfter_of_mem_saveUnit _ _ hex
          obtain ⟨⟨ha, hb⟩, rem', heq', hsub1', hsub2'⟩ :=
            ih (i + 1) (max fi v.frames.length)
              (k - ((v.frames.drop fi).length +
                (calculate_ste_hash v.audio 2048).length +
                (calculate_dwt_hash v.dwtA v.dwtD).length)) hk'1 hk'2 f0 st0 hf0 hs0
          have hlenle : v.frames.length ≤ f0 := by omega
          have hBT : List.Sublist (attemptsOf (genEvents rest (i + 1) f0 "SIFT"))
              (attemptsOf (genEvents rest (i + 1) (max fi v.frames.length) "SIFT")) :=
            genEvents_sift_attempts_mono rest (i + 1) _ _ ha
          obtain ⟨hrB, hA'sub, hBsub⟩ :
              List.Sublist rem' (attemptsOf (genEvents rest (i + 1) f0 "SIFT")) ∧
              List.Sublist (attemptsOf (genEvents (v :: rest) i f0 st0))
                ((steAttempts (i + 1) v.audio ++ dwtAttempts (i + 1) v.dwtA v.dwtD) ++
                  attemptsOf (genEvents rest (i + 1) f0 "SIFT")) ∧
              List.Sublist (attemptsOf (genEvents rest (i + 1) f0 "SIFT"))
                (attemptsOf (genEvents (v :: rest) i f0 st0)) := by
            rcases hb with hst | ⟨hst, hhead⟩
            · subst hst
              have hsA : siftAttempts (i + 1) v.frames f0 = [] := by
                unfold siftAttempts
                rw [List.drop_eq_nil_of_le hlenle]
                rfl
              have hA'eq : attemptsOf (genEvents (v :: rest) i f0 "SIFT") =
                  (steAttempts (i + 1) v.audio ++ dwtAttempts (i + 1) v.dwtA v.dwtD) ++
                    attemptsOf (genEvents rest (i + 1) f0 "SIFT") := by
                rw [attemptsOf_genEvents_cons_sift, hsA, List.nil_append,
                  show max f0 v.frames.length = f0 from by omega, List.append_assoc]
              refine ⟨hsub1', ?_, ?_⟩
              · rw [hA'eq]
              · rw [hA'eq]
                exact List.sublist_append_right _ _
            · rcases hst with hst | hst
              · subst hst
                have hEq := genEvents_ste_eq_sift rest (i + 1) f0 hhead
                have hA'eq : attemptsOf (genEvents (v :: rest) i f0 "STE") =
                    (steAttempts (i + 1) v.audio ++
                      dwtAttempts (i + 1) v.dwtA v.dwtD) ++
                      attemptsOf (genEvents rest (i + 1) f0 "SIFT") := by
                  rw [genEvents_cons, pv_ste_fi, pv_ste_st, attemptsOf_append,
                    attemptsOf_pv_ste]
                rw [hEq] at hsub1'
                refine ⟨hsub1', ?_, ?_⟩
                · rw [hA'eq]
                · rw [hA'eq]
                  exact List.sublist_append_right _ _
              · subst hst
                have hDsub := genEvents_dwt_sublist_sift rest (i + 1) f0 hhead
                have hA'eq : attemptsOf (genEvents (v :: rest) i f0 "DWT") =
                    dwtAttempts (i + 1) v.dwtA v.dwtD ++
                      attemptsOf (genEvents rest (i + 1) f0 "SIFT") := by
                  rw [genEvents_cons, pv_dwt_fi, pv_dwt_st, attemptsOf_append,
                    attemptsOf_pv_dwt]
                refine ⟨hsub1'.trans hDsub, ?_, ?_⟩
                · rw [hA'eq]
                  exact List.Sublist.append (List.sublist_append_right _ _)
                    (List.Sublist.refl _)
                · rw [hA'eq]
                  exact List.sublist_append_right _ _
          refine ⟨⟨by omega, ?_⟩, rem', ?_, ?_, ?_⟩
          · rcases hb with hst | ⟨hst, hhead⟩
            · exact Or.inl hst
            · refine Or.inr ⟨hst, ?_⟩
              intro w hw
              simp only [List.head?_cons] at hw
              injection hw with hw2
              subst hw2
              omega
          · rw [hA, heq', hGsplit, attemptsOf_append, attemptsOf_pv_sift]
            simp only [List.append_assoc]
          · exact hrB.trans hBsub
          · rw [hA]
            refine hA'sub.trans ?_
            refine List.Sublist.trans
              (List.Sublist.append (List.Sublist.refl _) hBT) ?_
            simp only [List.append_assoc]
            exact List.sublist_append_right _ _

theorem eventsUpToUnit_isPrefix (evs : List Event) : ∀ k : Nat,
    eventsUpToUnit evs k <+: evs := by
  induction evs with
  | nil =>
    intro k
    cases k with
    | zero => exact List.prefix_refl _
    | succ k2 => exact List.prefix_refl _
  | cons e es ih =>
    intro k
    cases k with
    | zero =>
      rw [eventsUpToUnit_zero]
      exact List.nil_prefix
    | succ k2 =>
      cases he : isUnitSaveEvent e with
      | false =>
        rw [eventsUpToUnit_cons_other _ _ he]
        obtain ⟨t, ht⟩ := ih (k2 + 1)
        exact ⟨t, by rw [List.cons_append, ht]⟩
      | true =>
        cases e with
        | saveUnit p =>
          cases k2 with
          | zero => exact ⟨es, rfl⟩
          | succ k3 =>
            rw [eventsUpToUnit_cons_unit_succ]
            obtain ⟨t, ht⟩ := ih (k3 + 1)
            exact ⟨t, by rw [List.cons_append, ht]⟩
        | extractFrames j d => cases he
        | extractAudio j pth => cases he
        | insertAttempt c => cases he
        | saveTransition p => cases he
        | deleteDirectory d => cases he
        | deleteFiles ps => cases he

theorem find?_eq_head?_filter {α : Type} (p : α → Bool) (l : List α) :
    l.find? p = (l.filter p).head? := by
  induction l with
  | nil => rfl
  | cons a l ih =>
    cases hp : p a with
    | true => rw [List.find?_cons_of_pos _ hp, List.filter_cons_of_pos hp]; rfl
    | false =>
      rw [List.find?_cons_of_neg _ (by simp [hp]), List.filter_cons_of_neg (by simp [hp]),
        ih]

theorem firstNew_append (a b : List InsertCall) (bs : String) :
    firstNew (a ++ b) bs = oor (firstNew a bs) (firstNew b bs) := by
  unfold firstNew
  rw [List.find?_append]
  cases a.find? (fun c => c.byte_sequence == bs) <;> rfl

theorem applyInserts_nil_some (as : List InsertCall) :
    ∀ r ∈ applyInserts [] as, ∃ bs, r.byteSequence = some bs := by
  intro r hr
  rcases mem_applyInserts hr with h | ⟨c, _, rfl⟩
  · cases h
  · exact ⟨c.byte_sequence, rfl⟩

theorem firstNew_resume (ap rem A2 : List InsertCall)
    (hsub1 : List.Sublist rem A2) (hsub2 : List.Sublist A2 (ap ++ rem)) (bs : String) :
    firstNew (ap ++ rem) bs = firstNew (ap ++ A2) bs := by
  rw [firstNew_append, firstNew_append]
  cases hap : firstNew ap bs with
  | some c => rfl
  | none =>
    show firstNew rem bs = firstNew A2 bs
    unfold firstNew at hap ⊢
    have hfind : ap.find? (fun c => c.byte_sequence == bs) = none := by
      cases hfind2 : ap.find? (fun c => c.byte_sequence == bs) with
      | none => rfl
      | some c =>
        rw [hfind2] at hap
        exact Option.noConfusion hap
    rw [List.find?_eq_none] at hfind
    have hfa : ap.filter (fun c => c.byte_sequence == bs) = [] := by
      rw [List.filter_eq_nil_iff]
      exact hfind
    have h1 := hsub1.filter (fun c => c.byte_sequence == bs)
    have h2 := hsub2.filter (fun c => c.byte_sequence == bs)
    rw [List.filter_append, hfa, List.nil_append] at h2
    have hfilter_eq : rem.filter (fun c => c.byte_sequence == bs) =
        A2.filter (fun c => c.byte_sequence == bs) :=
      h1.eq_of_length (Nat.le_antisymm h1.length_le h2.length_le)
    rw [find?_eq_head?_filter, find?_eq_head?_filter, hfilter_eq]

/-- C1: resumption idempotence.  For every corpus and every interruption
point (right after any `k`-th completed hash unit, where `handle_interrupt`
persisted the checkpoint and the store survives), running
`video_retrieval_database_construction` to completion in one uninterrupted
pass from an empty store produces the same final set of `FeatureRecord`s as
interrupting there and then resuming to completion from the persisted
checkpoint and store - only insertion order may differ.  This holds despite
the resumption slips (the loaded `video_index` is never consulted and
`frame_index` goes stale outside the SIFT loop): every insert attempt the
resumed run replays is absorbed by the first-wins deduplication of
`insert_unique_into_database`, every attempt the original run still owed is
replayed by the resumed run, and a coverage break only ever skips attempts
whose byte sequences the store already holds. -/
theorem resumption_idempotent (videos : List VideoInput) (k : Nat) (p : Progress)
    (db1 : List FeatureRecord)
    (h : interruptedState videos none [] k = some (p, db1)) :
    ∀ r : FeatureRecord,
      (r ∈ (video_retrieval_database_construction videos none []).2 ↔
        r ∈ (video_retrieval_database_construction videos (some p) db1).2) := by
  simp only [interruptedState, Option.getD_none] at h
  split at h
  · rename_i hcond
    rw [Option.some.injEq, Prod.mk.injEq] at h
    obtain ⟨hp, hdb⟩ := h
    obtain ⟨hk1, hk2⟩ := hcond
    obtain ⟨t, ht⟩ := runLoop_events_isPrefix videos 0 [] 0 "SIFT"
    have hkG : k ≤ unitCount (genEvents videos 0 0 "SIFT") := by
      rw [← ht, unitCount_append]
      omega
    have hpreG : eventsUpToUnit (genEvents videos 0 0 "SIFT") k =
        eventsUpToUnit (runLoop videos 0 [] 0 "SIFT").1 k := by
      rw [← ht]
      exact eventsUpToUnit_append_left _ _ _ hk1 hk2
    have hpf : p.frame_index =
        fiAfter 0 (eventsUpToUnit (genEvents videos 0 0 "SIFT") k) := by
      rw [← hp, hpreG]
    have hps : p.feature_stage =
        stageAfter "SIFT" (eventsUpToUnit (genEvents videos 0 0 "SIFT") k) := by
      rw [← hp, hpreG]
    obtain ⟨⟨hfge, hstc⟩, rem, heqA, hsub1, hsub2⟩ :=
      core_resume videos 0 0 k hk1 hkG
        (fiAfter 0 (eventsUpToUnit (genEvents videos 0 0 "SIFT") k))
        (stageAfter "SIFT" (eventsUpToUnit (genEvents videos 0 0 "SIFT") k)) rfl rfl
    have hb0 : Bin8Db ([] : List FeatureRecord) := fun r hr => absurd hr
      (List.not_mem_nil r)
    have hfull : (video_retrieval_database_construction videos none []).2 =
        applyInserts [] (attemptsOf (genEvents videos 0 0 "SIFT")) := by
      have h1 : (video_retrieval_database_construction videos none []).2 =
          (runLoop videos 0 [] 0 "SIFT").2.1 := rfl
      rw [h1, runLoop_db_eq_genEvents _ _ _ _ _ hb0, applyEvents_eq_applyInserts]
    have hbdb1 : Bin8Db db1 := by
      rw [← hdb]
      intro r hr
      rcases mem_applyEvents hr with h2 | ⟨c, hc, rfl⟩
      · cases h2
      · have hcin : Event.insertAttempt c ∈ genEvents videos 0 0 "SIFT" := by
          have h3 := (eventsUpToUnit_isPrefix (runLoop videos 0 [] 0 "SIFT").1 k).subset hc
          rw [← ht]
          exact List.mem_append_left _ h3
        rcases mem_genEvents hcin with ⟨j, d, h4⟩ | ⟨j, pth, h4⟩ |
          ⟨c2, heq2, hbin, hm⟩ | ⟨p2, h4⟩ | ⟨p2, h4⟩
        · cases h4
        · cases h4
        · cases heq2
          exact ⟨c.byte_sequence, rfl, hbin, hm⟩
        · cases h4
        · cases h4
    have hres : (video_retrieval_database_construction videos (some p) db1).2 =
        applyInserts []
          (attemptsOf (eventsUpToUnit (genEvents videos 0 0 "SIFT") k) ++
            attemptsOf (genEvents videos 0
              (fiAfter 0 (eventsUpToUnit (genEvents videos 0 0 "SIFT") k))
              (stageAfter "SIFT" (eventsUpToUnit (genEvents videos 0 0 "SIFT") k)))) := by
      have h1 : (video_retrieval_database_construction videos (some p) db1).2 =
          (runLoop videos 0 db1 p.frame_index p.feature_stage).2.1 := rfl
      rw [h1, runLoop_db_eq_genEvents _ _ _ _ _ hbdb1, ← hdb, ← applyEvents_append,
        applyEvents_eq_applyInserts, attemptsOf_append, hpf, hps, hpreG]
    intro r
    rw [hfull, hres]
    refine mem_iff_of_findRec_eq
      (dedupInv_applyInserts _ _ dedupInv_nil)
      (dedupInv_applyInserts _ _ dedupInv_nil)
      (applyInserts_nil_some _)
      (applyInserts_nil_some _)
      ?_ r
    intro bs
    rw [findRec_applyInserts, findRec_applyInserts]
    show firstNew (attemptsOf (genEvents videos 0 0 "SIFT")) bs = _
    rw [heqA]
    exact firstNew_resume _ _ _ hsub1 (by rw [← heqA]; exact hsub2) bs
  · simp at h

/-- Witness for C1 on a concrete run: video `a` interrupted right after its
first completed SIFT unit; the handler saves
`{video_index: 0, frame_index: 1, feature_stage: "SIFT"}` with the store
holding the one extracted byte sequence, and the resumed run's final store
holds the same records as the uninterrupted run. -/
theorem resumption_idempotent_witness :
    interruptedState [vidA] none [] 1 =
      some (⟨0, 1, "SIFT"⟩, [⟨some "00000001", 1, "SIFT", 0⟩]) ∧
    ∀ r : FeatureRecord,
      (r ∈ (video_retrieval_database_construction [vidA] none []).2 ↔
        r ∈ (video_retrieval_database_construction [vidA] (some ⟨0, 1, "SIFT"⟩)
          [⟨some "00000001", 1, "SIFT", 0⟩]).2) :=
  ⟨by with_unfolding_all decide,
   resumption_idempotent [vidA] 1 ⟨0, 1, "SIFT"⟩ [⟨some "00000001", 1, "SIFT", 0⟩]
     (by with_unfolding_all decide)⟩
